import Mathlib

/-!
# Verification of the `hpack` library (chrismoos/hpack)

Shallow embedding of the Go sources of the HPACK (RFC 7541) codec:
`integers.go` (prefixed variable-length integers), `hpack.go`
(encoder/decoder state, dynamic table, header-block state machine) and
`huffman.go` (bit reader and Huffman codec).

Conventions used throughout:

* Go byte strings (`[]byte`, `string`) are `List Nat`, one element per octet.
* Go `int` fields that can meaningfully be compared against caller-supplied
  limits are `Int`; octet values, decoded integers and list indices are `Nat`.
* A fallible Go function returning `(..., error)` becomes `Except GoErr ...`.
  A Go runtime panic (explicit `panic(...)`, index out of range, slice out of
  range) is a crash, not an error return; it is modelled by the dedicated
  `GoErr.panic...` constructors so that theorems can distinguish the two.
* Methods that mutate their receiver take the receiver state and return the
  updated state alongside the result.
* Loops become structural/fuel recursion; every fuel value used is proved (or
  chosen) large enough that the `outOfFuel` escape is unreachable on the
  executions the theorems talk about.

The generated tables (`huffman_tables.go`, the static table file) are not part
of the sources available here; they are modelled from the specification
(RFC 7541 Appendices A and B), as flagged on each such definition.
-/

set_option maxHeartbeats 1000000
set_option maxRecDepth 100000

namespace Hpack

/-- Go byte strings (`[]byte` / `string`): one `Nat` per octet. -/
abbrev Bytes := List Nat

/-- Error / abnormal-termination discriminants of the library.

The first four model the `errors.New` values of `hpack.go` / `huffman.go`;
`indexNotFound`, `resizeTooLarge` and `ranOutHuffmanData` model the three
`fmt.Errorf` call sites; the `panic...` constructors model Go runtime panics
(crashes, not error returns): `panicOutOfData` is the explicit
`panic("ran out of data while reading HPACK integer")` in `integers.go`,
`panicIndexOutOfRange` the out-of-range array index `staticTable[-1]`,
`panicSliceOutOfRange` an out-of-range slice `rest[length:]`, and
`panicUnknownType` the `panic(fmt.Errorf("unknown type: ..."))` in
`parseHeaderField`. `outOfFuel` is an artefact of fuel recursion with no Go
counterpart. -/
inductive GoErr where
  | integerValueTooLarge
  | integerEncodedLengthTooLong
  | stringLiteralLengthTooLong
  | huffmanDecodeFailure
  | indexNotFound
  | resizeTooLarge
  | ranOutHuffmanData
  | panicOutOfData
  | panicIndexOutOfRange
  | panicSliceOutOfRange
  | panicUnknownType
  | outOfFuel
  deriving DecidableEq, Repr

/-- `var DefaultMaxIntegerValue = ((1 << 32) - 1)`. -/
def DefaultMaxIntegerValue : Int := (1 <<< 32) - 1

/-- `var DefaultMaxIntegerEncodedLength = 6`. -/
def DefaultMaxIntegerEncodedLength : Int := 6

/-- `var DefaultMaxStringLiteralLength = 1024 * 64`. -/
def DefaultMaxStringLiteralLength : Int := 1024 * 64

/-! ## `integers.go`: prefixed variable-length integers -/

/-- The continuation loop of `decodeInteger` (`integers.go`), recursing over
the unread suffix of the buffer.  `n`/`m` are the accumulator and the shift
exponent of the source; `idx` is the octet index into the original buffer.
`int(math.Pow(2, float64(m)))` is exact for every exponent reachable under an
encoded-length limit (`m ≤ 7·(encodedLengthMax−1)`), and is modelled as `2^m`.
Reading past the end of the buffer is the explicit source panic. -/
def decodeIntLoop (integerMax encodedLengthMax : Int) :
    Bytes → Nat → Nat → Nat → Except GoErr (Bytes × Nat)
  | [], _, _, _ => .error .panicOutOfData
  | b :: rest, n, m, idx =>
    let n' := n + (b &&& 127) * 2 ^ m
    if b &&& (1 <<< 7) = 0 then
      if (n' : Int) > integerMax then .error .integerValueTooLarge
      else .ok (rest, n')
    else if (idx + 1 : Int) = encodedLengthMax then .error .integerEncodedLengthTooLong
    else decodeIntLoop integerMax encodedLengthMax rest n' (m + 7) (idx + 1)

/-- `decodeInteger` (`integers.go`).  Returns `(remainingBuf, maskedFirstOctet,
number)`.  `buf[0]` on an empty buffer is a Go index-out-of-range panic.
`prefix = int(buf[0]) &^ mask` clears the low `prefixLength` bits, i.e. equals
`(buf[0] >>> prefixLength) <<< prefixLength`.  The guard panicking on
`prefixLength ∉ [1,8]` is not modelled: every call site in this file passes a
constant in `[1,8]`. -/
def decodeInteger (buf : Bytes) (prefixLength : Nat) (integerMax encodedLengthMax : Int) :
    Except GoErr (Bytes × Nat × Nat) :=
  match buf with
  | [] => .error .panicIndexOutOfRange
  | b :: rest =>
    let mask := (1 <<< prefixLength) - 1
    let n := mask &&& b
    let pre := (b >>> prefixLength) <<< prefixLength
    if n ≠ mask then .ok (rest, pre, n)
    else
      match decodeIntLoop integerMax encodedLengthMax rest n 0 1 with
      | .error e => .error e
      | .ok (r, v) => .ok (r, pre, v)

/-- Go `byte(x)` for an `int` operand: the low 8 bits. -/
def goByte (x : Int) : Nat := (x.emod 256).toNat

/-- The continuation-octet loop of `encodeInteger` (`integers.go`): while
`i ≥ 128` emit `(i mod 128) + 128`, then emit the final octet `i`.  The loop is
only reached with a non-negative argument, which the wrapper guarantees. -/
def encodeIntCont (i : Nat) : Bytes :=
  if i ≥ 128 then (i % 128 + 128) :: encodeIntCont (i / 128)
  else [i]
  decreasing_by exact Nat.div_lt_self (by omega) (by omega)

/-- `encodeInteger` (`integers.go`).  `int(math.Pow(2, float64(prefixLength)))`
is exact for `prefixLength ≤ 8` and is modelled as `2^prefixLength`.  As in
`decodeInteger`, the panicking guard on `prefixLength ∉ [1,8]` is not
modelled. -/
def encodeInteger (number : Int) (prefixLength : Nat) : Bytes :=
  if number < (2 : Int) ^ prefixLength - 1 then [goByte number]
  else goByte ((2 : Int) ^ prefixLength - 1) :: encodeIntCont (number - ((2 : Int) ^ prefixLength - 1)).toNat

/-! ## Data model: headers, static table, codec states -/

/-- `type Header struct { Name, Value string; Sensitive bool }`. -/
structure Header where
  name : Bytes
  value : Bytes
  sensitive : Bool
  deriving DecidableEq, Repr

instance : Inhabited Header := ⟨⟨[], [], false⟩⟩

/-- The octets of an ASCII string literal, used to write down table entries
and test fixtures. -/
def ascii (s : String) : Bytes := s.data.map Char.toNat

/-- Modelled from the spec: the generated static table (a compile-time
constant not among the available sources).  Per §3 of the spec it is "a
compile-time-constant ordered sequence of 61 `(name, value)` pairs defined by
RFC 7541 Appendix A", with 1-based indices `1..61`. -/
def staticTable : List (Bytes × Bytes) :=
  [ (ascii ":authority", []),
    (ascii ":method", ascii "GET"),
    (ascii ":method", ascii "POST"),
    (ascii ":path", ascii "/"),
    (ascii ":path", ascii "/index.html"),
    (ascii ":scheme", ascii "http"),
    (ascii ":scheme", ascii "https"),
    (ascii ":status", ascii "200"),
    (ascii ":status", ascii "204"),
    (ascii ":status", ascii "206"),
    (ascii ":status", ascii "304"),
    (ascii ":status", ascii "400"),
    (ascii ":status", ascii "404"),
    (ascii ":status", ascii "500"),
    (ascii "accept-charset", []),
    (ascii "accept-encoding", ascii "gzip, deflate"),
    (ascii "accept-language", []),
    (ascii "accept-ranges", []),
    (ascii "accept", []),
    (ascii "access-control-allow-origin", []),
    (ascii "age", []),
    (ascii "allow", []),
    (ascii "authorization", []),
    (ascii "cache-control", []),
    (ascii "content-disposition", []),
    (ascii "content-encoding", []),
    (ascii "content-language", []),
    (ascii "content-length", []),
    (ascii "content-location", []),
    (ascii "content-range", []),
    (ascii "content-type", []),
    (ascii "cookie", []),
    (ascii "date", []),
    (ascii "etag", []),
    (ascii "expect", []),
    (ascii "expires", []),
    (ascii "from", []),
    (ascii "host", []),
    (ascii "if-match", []),
    (ascii "if-modified-since", []),
    (ascii "if-none-match", []),
    (ascii "if-range", []),
    (ascii "if-unmodified-since", []),
    (ascii "last-modified", []),
    (ascii "link", []),
    (ascii "location", []),
    (ascii "max-forwards", []),
    (ascii "proxy-authenticate", []),
    (ascii "proxy-authorization", []),
    (ascii "range", []),
    (ascii "referer", []),
    (ascii "refresh", []),
    (ascii "retry-after", []),
    (ascii "server", []),
    (ascii "set-cookie", []),
    (ascii "strict-transport-security", []),
    (ascii "transfer-encoding", []),
    (ascii "user-agent", []),
    (ascii "vary", []),
    (ascii "via", []),
    (ascii "www-authenticate", []) ]

/-- Modelled from the spec: the generated lookup map `staticTableEncoding`
("`name → lowest-index`", §4.4) — the smallest 1-based static index whose
entry has the given name, if any. -/
def staticTableEncoding (name : Bytes) : Option Nat :=
  (staticTable.findIdx? (fun e => e.1 = name)).map (· + 1)

/-- Modelled from the spec: the generated lookup map
`staticTableEncodingWithValues` ("`name + sep + value → index`", §4.4).  The
separator octet used by the source at its call site is `':'` (58): the map
key for entry `(n, v)` is `n ++ ":" ++ v`, and lookup returns the (1-based)
index of the first entry whose key equals the queried key. -/
def staticTableEncodingWithValues (key : Bytes) : Option Nat :=
  (staticTable.findIdx? (fun e => e.1 ++ [58] ++ e.2 = key)).map (· + 1)

/-- `type Encoder struct` (`hpack.go`). -/
structure Encoder where
  dynamicTable : List Header
  dynamicTableSizeMax : Int
  dynamicTableSizeCurrent : Int
  pendingDynamicTableSizeUpdate : Bool
  deriving Repr

/-- `type Decoder struct` (`hpack.go`). -/
structure Decoder where
  dynamicTable : List Header
  dynamicTableSizeMax : Int
  dynamicTableSizeCurrent : Int
  integerValueMax : Int
  integerEncodedLengthMax : Int
  stringLiteralLengthMax : Int
  deriving Repr

/-- `func NewEncoder` (`hpack.go`). -/
def NewEncoder (dynamicTableSizeMax : Int) : Encoder :=
  { dynamicTable := []
    dynamicTableSizeMax := dynamicTableSizeMax
    dynamicTableSizeCurrent := 0
    pendingDynamicTableSizeUpdate := false }

/-- `func NewDecoder` (`hpack.go`). -/
def NewDecoder (dynamicTableSizeMax : Int) : Decoder :=
  { dynamicTable := []
    dynamicTableSizeMax := dynamicTableSizeMax
    dynamicTableSizeCurrent := 0
    integerValueMax := DefaultMaxIntegerValue
    integerEncodedLengthMax := DefaultMaxIntegerEncodedLength
    stringLiteralLengthMax := DefaultMaxStringLiteralLength }

/-! ## Dynamic table: eviction, insertion, resizing

`Encoder.evictEntries`/`Decoder.evictEntries` and
`Encoder.addNewDynamicEntry`/`Decoder.addNewDynamicEntry` are verbatim copies
of each other in `hpack.go` (same loop over the same two fields); they are
modelled once, on the pair (table, current size), and wrapped per receiver
type. -/

/-- The per-entry octet size `32 + len(Name) + len(Value)` used by eviction
and insertion. -/
def entryOctets (h : Header) : Int := 32 + h.name.length + h.value.length

/-- `evictEntries` (`hpack.go`, both receiver types): pop entries off the tail
while `current + additionalSize > maxSize`; returns `false` (with the table
emptied) if the space cannot be freed. -/
def evictEntries (tbl : List Header) (cur additionalSize maxSize : Int) :
    List Header × Int × Bool :=
  if cur + additionalSize > maxSize then
    match tbl with
    | [] => ([], cur, false)
    | x :: xs =>
      let evicted := (x :: xs).getLast (by simp)
      evictEntries ((x :: xs).dropLast) (cur - entryOctets evicted) additionalSize maxSize
  else (tbl, cur, true)
termination_by tbl.length
decreasing_by simp

/-- `addNewDynamicEntry` (`hpack.go`, both receiver types): evict to make room
for `32 + len(name) + len(value)` octets, abandon the insert if impossible,
otherwise prepend at the head. -/
def addNewDynamicEntry (tbl : List Header) (cur max : Int) (name value : Bytes) :
    List Header × Int :=
  let entrySize : Int := 32 + name.length + value.length
  match evictEntries tbl cur entrySize max with
  | (tbl', cur', false) => (tbl', cur')
  | (tbl', cur', true) => (⟨name, value, false⟩ :: tbl', cur' + entrySize)

/-- `Decoder.addNewDynamicEntry`. -/
def Decoder.addEntry (d : Decoder) (name value : Bytes) : Decoder :=
  let r := addNewDynamicEntry d.dynamicTable d.dynamicTableSizeCurrent d.dynamicTableSizeMax name value
  { d with dynamicTable := r.1, dynamicTableSizeCurrent := r.2 }

/-- `Encoder.addNewDynamicEntry`. -/
def Encoder.addEntry (e : Encoder) (name value : Bytes) : Encoder :=
  let r := addNewDynamicEntry e.dynamicTable e.dynamicTableSizeCurrent e.dynamicTableSizeMax name value
  { e with dynamicTable := r.1, dynamicTableSizeCurrent := r.2 }

/-- `Decoder.SetDynamicTableMaxSize` (`hpack.go`): set the cap, then evict
with `additionalSize = 0` down to it. -/
def Decoder.SetDynamicTableMaxSize (d : Decoder) (newMaxSize : Int) : Decoder :=
  let r := evictEntries d.dynamicTable d.dynamicTableSizeCurrent 0 newMaxSize
  { d with dynamicTableSizeMax := newMaxSize, dynamicTable := r.1,
           dynamicTableSizeCurrent := r.2.1 }

/-- `Encoder.SetDynamicTableMaxSize` (`hpack.go`): additionally the next
encoded field will be preceded by an on-wire size update. -/
def Encoder.SetDynamicTableMaxSize (e : Encoder) (newMaxSize : Int) : Encoder :=
  let r := evictEntries e.dynamicTable e.dynamicTableSizeCurrent 0 newMaxSize
  { e with dynamicTableSizeMax := newMaxSize, dynamicTable := r.1,
           dynamicTableSizeCurrent := r.2.1,
           pendingDynamicTableSizeUpdate := true }


/-! ## `huffman.go`: bit reader and Huffman codec

The bit reader of the source (`bitReader` over `buf`/`index`/`bitIndex`) is
modelled by the list of bits not yet consumed: the stream always ends on a
byte boundary (the end of `buf`), so `index == len(buf)` in the source is
exactly "the remaining-bit list is empty", `BitsAvailable()` is its length
(negative `BitsAvailable` after an over-consume and an empty list are
indistinguishable to the only observer, the `>= 5` loop guard), and
`ConsumeBits(k)` is `List.drop k`. -/

/-- The bits of a byte, most significant first (the order `PeekBits` reads
them: `(buf[idx] << bitIdx) & 0x80`). -/
def bitsOfByte (b : Nat) : List Bool :=
  [b.testBit 7, b.testBit 6, b.testBit 5, b.testBit 4,
   b.testBit 3, b.testBit 2, b.testBit 1, b.testBit 0]

/-- The bit stream of a byte buffer, most significant bit of each byte
first. -/
def bitsOfBytes (bs : Bytes) : List Bool := (bs.map bitsOfByte).join

/-- The value of a bit list read as a big-endian binary numeral. -/
def natOfBits (bs : List Bool) : Nat :=
  bs.foldl (fun n b => 2 * n + (if b then 1 else 0)) 0

/-- The `width` low-order bits of `val`, most significant first. -/
def toBits (val : Nat) : Nat → List Bool
  | 0 => []
  | w + 1 => val.testBit w :: toBits val w

/-- `bitReader.PeekBits` (`huffman.go`) for `numBits = 32` (its only call
site), on the remaining-bit-list model of the reader.

One call per bit read: `x` is the source's countdown (the bit is OR-ed into
the window at position `x−1`; for `x ≤ 0` the source shifts by a huge `uint`
and contributes nothing), `y` the bits left in the current 8-bit group of the
inner loop.  `y = 0` is the outer loop's `x ≥ 0` check; reaching the end of
the buffer mid-read returns `(n, numBits − x + 1)` — in the source this
happens exactly when `idx` reaches `len(buf)` after the just-read bit, i.e.
(the stream ending on a byte boundary) exactly when the remaining list
becomes empty.  The `([], y+1)` case is unreachable from `peekBits32` on a
non-empty stream (the source would index past the buffer). -/
def peekGo : List Bool → Int → Nat → Nat → Nat × Nat
  | r, x, n, 0 => if 0 ≤ x then peekGo r x n 8 else (n, 32)
  | [], _, n, _ + 1 => (n, 32)
  | b :: rest, x, n, y + 1 =>
    let n' := if 1 ≤ x then n ||| ((if b then 1 else 0) <<< (x - 1).toNat) else n
    if rest.isEmpty then (n', (32 - x + 1).toNat)
    else peekGo rest (x - 1) n' y
termination_by r _ _ y => 9 * r.length + (8 - y)
decreasing_by
  · omega
  · simp only [List.length_cons]
    omega

/-- `PeekBits(32)`: returns the 32-bit window (missing bits zero) and the
count of bits actually read. -/
def peekBits32 (r : List Bool) : Nat × Nat := peekGo r 32 0 0

/-- Modelled from the spec: the Huffman code table of the generated
`huffman_tables.go` (`huffmanCodes`, not among the available sources): "257
entries (symbols 0..255 plus EOS at 256), each `(code_value, bit_length)`
with `bit_length ∈ [5,30]`", the canonical codes of RFC 7541 Appendix B. -/
def huffmanCodes : List (Nat × Nat) :=
  [ (0x1ff8, 13), (0x7fffd8, 23), (0xfffffe2, 28), (0xfffffe3, 28),
    (0xfffffe4, 28), (0xfffffe5, 28), (0xfffffe6, 28), (0xfffffe7, 28),
    (0xfffffe8, 28), (0xffffea, 24), (0x3ffffffc, 30), (0xfffffe9, 28),
    (0xfffffea, 28), (0x3ffffffd, 30), (0xfffffeb, 28), (0xfffffec, 28),
    (0xfffffed, 28), (0xfffffee, 28), (0xfffffef, 28), (0xffffff0, 28),
    (0xffffff1, 28), (0xffffff2, 28), (0x3ffffffe, 30), (0xffffff3, 28),
    (0xffffff4, 28), (0xffffff5, 28), (0xffffff6, 28), (0xffffff7, 28),
    (0xffffff8, 28), (0xffffff9, 28), (0xffffffa, 28), (0xffffffb, 28),
    (0x14, 6), (0x3f8, 10), (0x3f9, 10), (0xffa, 12),
    (0x1ff9, 13), (0x15, 6), (0xf8, 8), (0x7fa, 11),
    (0x3fa, 10), (0x3fb, 10), (0xf9, 8), (0x7fb, 11),
    (0xfa, 8), (0x16, 6), (0x17, 6), (0x18, 6),
    (0x0, 5), (0x1, 5), (0x2, 5), (0x19, 6),
    (0x1a, 6), (0x1b, 6), (0x1c, 6), (0x1d, 6),
    (0x1e, 6), (0x1f, 6), (0x5c, 7), (0xfb, 8),
    (0x7ffc, 15), (0x20, 6), (0xffb, 12), (0x3fc, 10),
    (0x1ffa, 13), (0x21, 6), (0x5d, 7), (0x5e, 7),
    (0x5f, 7), (0x60, 7), (0x61, 7), (0x62, 7),
    (0x63, 7), (0x64, 7), (0x65, 7), (0x66, 7),
    (0x67, 7), (0x68, 7), (0x69, 7), (0x6a, 7),
    (0x6b, 7), (0x6c, 7), (0x6d, 7), (0x6e, 7),
    (0x6f, 7), (0x70, 7), (0x71, 7), (0x72, 7),
    (0xfc, 8), (0x73, 7), (0xfd, 8), (0x1ffb, 13),
    (0x7fff0, 19), (0x1ffc, 13), (0x3ffc, 14), (0x22, 6),
    (0x7ffd, 15), (0x3, 5), (0x23, 6), (0x4, 5),
    (0x24, 6), (0x5, 5), (0x25, 6), (0x26, 6),
    (0x27, 6), (0x6, 5), (0x74, 7), (0x75, 7),
    (0x28, 6), (0x29, 6), (0x2a, 6), (0x7, 5),
    (0x2b, 6), (0x76, 7), (0x2c, 6), (0x8, 5),
    (0x9, 5), (0x2d, 6), (0x77, 7), (0x78, 7),
    (0x79, 7), (0x7a, 7), (0x7b, 7), (0x7ffe, 15),
    (0x7fc, 11), (0x3ffd, 14), (0x1ffd, 13), (0xffffffc, 28),
    (0xfffe6, 20), (0x3fffd2, 22), (0xfffe7, 20), (0xfffe8, 20),
    (0x3fffd3, 22), (0x3fffd4, 22), (0x3fffd5, 22), (0x7fffd9, 23),
    (0x3fffd6, 22), (0x7fffda, 23), (0x7fffdb, 23), (0x7fffdc, 23),
    (0x7fffdd, 23), (0x7fffde, 23), (0xffffeb, 24), (0x7fffdf, 23),
    (0xffffec, 24), (0xffffed, 24), (0x3fffd7, 22), (0x7fffe0, 23),
    (0xffffee, 24), (0x7fffe1, 23), (0x7fffe2, 23), (0x7fffe3, 23),
    (0x7fffe4, 23), (0x1fffdc, 21), (0x3fffd8, 22), (0x7fffe5, 23),
    (0x3fffd9, 22), (0x7fffe6, 23), (0x7fffe7, 23), (0xffffef, 24),
    (0x3fffda, 22), (0x1fffdd, 21), (0xfffe9, 20), (0x3fffdb, 22),
    (0x3fffdc, 22), (0x7fffe8, 23), (0x7fffe9, 23), (0x1fffde, 21),
    (0x7fffea, 23), (0x3fffdd, 22), (0x3fffde, 22), (0xfffff0, 24),
    (0x1fffdf, 21), (0x3fffdf, 22), (0x7fffeb, 23), (0x7fffec, 23),
    (0x1fffe0, 21), (0x1fffe1, 21), (0x3fffe0, 22), (0x1fffe2, 21),
    (0x7fffed, 23), (0x3fffe1, 22), (0x7fffee, 23), (0x7fffef, 23),
    (0xfffea, 20), (0x3fffe2, 22), (0x3fffe3, 22), (0x3fffe4, 22),
    (0x7ffff0, 23), (0x3fffe5, 22), (0x3fffe6, 22), (0x7ffff1, 23),
    (0x3ffffe0, 26), (0x3ffffe1, 26), (0xfffeb, 20), (0x7fff1, 19),
    (0x3fffe7, 22), (0x7ffff2, 23), (0x3fffe8, 22), (0x1ffffec, 25),
    (0x3ffffe2, 26), (0x3ffffe3, 26), (0x3ffffe4, 26), (0x7ffffde, 27),
    (0x7ffffdf, 27), (0x3ffffe5, 26), (0xfffff1, 24), (0x1ffffed, 25),
    (0x7fff2, 19), (0x1fffe3, 21), (0x3ffffe6, 26), (0x7ffffe0, 27),
    (0x7ffffe1, 27), (0x3ffffe7, 26), (0x7ffffe2, 27), (0xfffff2, 24),
    (0x1fffe4, 21), (0x1fffe5, 21), (0x3ffffe8, 26), (0x3ffffe9, 26),
    (0xffffffd, 28), (0x7ffffe3, 27), (0x7ffffe4, 27), (0x7ffffe5, 27),
    (0xfffec, 20), (0xfffff3, 24), (0xfffed, 20), (0x1fffe6, 21),
    (0x3fffe9, 22), (0x1fffe7, 21), (0x1fffe8, 21), (0x7ffff3, 23),
    (0x3fffea, 22), (0x3fffeb, 22), (0x1ffffee, 25), (0x1ffffef, 25),
    (0xfffff4, 24), (0xfffff5, 24), (0x3ffffea, 26), (0x7ffff4, 23),
    (0x3ffffeb, 26), (0x7ffffe6, 27), (0x3ffffec, 26), (0x3ffffed, 26),
    (0x7ffffe7, 27), (0x7ffffe8, 27), (0x7ffffe9, 27), (0x7ffffea, 27),
    (0x7ffffeb, 27), (0xffffffe, 28), (0x7ffffec, 27), (0x7ffffed, 27),
    (0x7ffffee, 27), (0x7ffffef, 27), (0x7fffff0, 27), (0x3ffffee, 26),
    (0x3fffffff, 30) ]

/-- The code value of symbol `s` (`huffmanCodes[s][0]`). -/
def hCode (s : Nat) : Nat := (huffmanCodes.getD s (0, 0)).1

/-- The code bit length of symbol `s` (`huffmanCodes[s][1]`). -/
def hBits (s : Nat) : Nat := (huffmanCodes.getD s (0, 0)).2

/-- The codeword of symbol `s` as a bit list, most significant bit first. -/
def codeword (s : Nat) : List Bool := toBits (hCode s) (hBits s)

/-- The final partial byte of `HuffmanEncode` (`huffman.go`): the pending
`currentBits` bits shifted to the top, low bits filled from the top of the
EOS code (all ones). -/
def eosPadByte (currentByte currentBits : Nat) : Nat :=
  let padding := huffmanCodes.getD 256 (0, 0)
  (currentByte <<< (7 - currentBits)) ||| (padding.1 >>> (padding.2 - (8 - currentBits)))

/-- The accumulator loop of `HuffmanEncode` (`huffman.go`), over the
concatenated code bits of the input (the source's two nested loops visit
exactly these bits in this order).  After writing a bit the source shifts
`currentByte` left except when the byte is emitted, so on entry `currentByte`
always holds the pending bits followed by one zero bit. -/
def huffEncLoop : List Bool → Nat → Nat → Bytes
  | [], currentByte, currentBits =>
    if 0 < currentBits ∧ currentBits < 8 then [eosPadByte currentByte currentBits] else []
  | b :: rest, currentByte, currentBits =>
    let cb := if b then currentByte ||| 1 else currentByte
    if currentBits + 1 = 8 then cb :: huffEncLoop rest 0 0
    else huffEncLoop rest (cb <<< 1) (currentBits + 1)

/-- `HuffmanEncode` (`huffman.go`). -/
def HuffmanEncode (data : Bytes) : Bytes :=
  huffEncLoop ((data.map codeword).join) 0 0

/-- Modelled from the spec: the lookup through the generated multi-level
tables (`lookupTable` of `huffman_tables.go`, not among the available
sources), by its specified meaning (§3, §4.3): descending the 8-bit-stride
trie over the 32-bit window finds the leaf `(symbol, bit_length)` of the
unique code that is a prefix of the window (the window's missing low bits
being zero), and fails when no code matches. -/
def huffLookup (window : Nat) : Option (Nat × Nat) :=
  ((List.range 257).find? (fun s => window >>> (32 - hBits s) = hCode s)).map
    (fun s => (s, hBits s))

/-- The main loop of `HuffmanDecode` (`huffman.go`) on the remaining-bit-list
reader model: while at least 5 bits remain, peek a 32-bit window, look it up;
a leaf appends `byte(symbol)` only when enough real bits were read
(`bitsRead ≥ bits`, otherwise the leaf is end-of-stream padding) and consumes
`bits`; no leaf is end-of-stream padding when at most 7 bits were read and a
decode failure otherwise.  Fuel is an upper bound on the iteration count;
every iteration consumes at least 5 bits, so the wrapper's fuel is never
exhausted. -/
def huffDecLoop : Nat → List Bool → List Nat → Except GoErr (List Nat)
  | 0, _, _ => .error .outOfFuel
  | fuel + 1, r, decoded =>
    if 5 ≤ r.length then
      match huffLookup (peekBits32 r).1 with
      | some (sym, bits) =>
        huffDecLoop fuel (r.drop bits)
          (if bits ≤ (peekBits32 r).2 then decoded ++ [sym % 256] else decoded)
      | none => if (peekBits32 r).2 ≤ 7 then .ok decoded else .error .huffmanDecodeFailure
    else .ok decoded

/-- `HuffmanDecode` (`huffman.go`). -/
def HuffmanDecode (encoded : Bytes) : Except GoErr (List Nat) :=
  huffDecLoop (8 * encoded.length + 2) (bitsOfBytes encoded) []

/-! ## String literals and the decoder's field parsers (`hpack.go`) -/

/-- `Decoder.DecodeInteger` (`integers.go`): `decodeInteger` under the
decoder's configured limits. -/
def Decoder.DecodeInteger (d : Decoder) (buf : Bytes) (prefixLength : Nat) :
    Except GoErr (Bytes × Nat × Nat) :=
  decodeInteger buf prefixLength d.integerValueMax d.integerEncodedLengthMax

/-- `const huffmanEncoded = 1 << 7`. -/
def huffmanEncoded : Nat := 1 <<< 7

/-- `Decoder.readPrefixedLengthString` (`hpack.go`).  In the Huffman branch
the source guards `len(rest) < length` and returns an error; in the raw
branch it slices `rest[:length]`/`rest[length:]` unguarded, which for
`length > len(rest)` is a Go slice-out-of-range panic (the buffers here are
sub-slices of the caller's block, whose capacity equals its length). -/
def readPrefixedLengthString (d : Decoder) (buf : Bytes) (prefixLength : Nat) :
    Except GoErr (Bytes × Bytes) :=
  match d.DecodeInteger buf prefixLength with
  | .error e => .error e
  | .ok (rest, huffman, length) =>
    if (length : Int) > d.stringLiteralLengthMax then .error .stringLiteralLengthTooLong
    else if huffman &&& huffmanEncoded = huffmanEncoded then
      if rest.length < length then .error .ranOutHuffmanData
      else
        match HuffmanDecode (rest.take length) with
        | .error e => .error e
        | .ok decoded => .ok (rest.drop length, decoded)
    else
      if length ≤ rest.length then .ok (rest.drop length, rest.take length)
      else .error .panicSliceOutOfRange

/-- `Decoder.getIndexedNameValue` (`hpack.go`).  For an index beyond the
joint table the source returns `fmt.Errorf("index %d not found ...")`; for
index `0` it evaluates `staticTable[index-1] = staticTable[-1]`, a Go
index-out-of-range panic. -/
def Decoder.getIndexedNameValue (d : Decoder) (index : Nat) :
    Except GoErr (Bytes × Bytes) :=
  if index > staticTable.length then
    let dynamicIndex := index - staticTable.length
    if dynamicIndex > d.dynamicTable.length then .error .indexNotFound
    else
      let h := d.dynamicTable.getD (dynamicIndex - 1) default
      .ok (h.name, h.value)
  else if index = 0 then .error .panicIndexOutOfRange
  else .ok (staticTable.getD (index - 1) ([], []))

/-- Representation-type flag constants (`hpack.go`). -/
def headerFieldIndexed : Nat := 128

/-- `headerFieldLiteralIncrementalIndex = 64`. -/
def headerFieldLiteralIncrementalIndex : Nat := 64

/-- `headerFieldDynamicSizeUpdate = 32`. -/
def headerFieldDynamicSizeUpdate : Nat := 32

/-- `headerFieldLiteralNeverIndexed = 16`. -/
def headerFieldLiteralNeverIndexed : Nat := 16

/-- `headerFieldLiteralNotIndexed = 0`. -/
def headerFieldLiteralNotIndexed : Nat := 0

/-- `Decoder.parseHeaderFieldIndexed` (`hpack.go`). -/
def Decoder.parseHeaderFieldIndexed (d : Decoder) (encoded : Bytes) :
    Except GoErr (Bytes × Header) :=
  match d.DecodeInteger encoded 7 with
  | .error e => .error e
  | .ok (rest, _, index) =>
    match d.getIndexedNameValue index with
    | .error e => .error e
    | .ok (name, value) => .ok (rest, ⟨name, value, false⟩)

/-- `Decoder.parseHeaderFieldIncrementalIndex` (`hpack.go`): the only field
parser that mutates the decoder (via `addNewDynamicEntry`). -/
def Decoder.parseHeaderFieldIncrementalIndex (d : Decoder) (encoded : Bytes) :
    Decoder × Except GoErr (Bytes × Header) :=
  match d.DecodeInteger encoded 6 with
  | .error e => (d, .error e)
  | .ok (rest, _, index) =>
    let nameRes : Except GoErr (Bytes × Bytes) :=
      if index = 0 then readPrefixedLengthString d rest 7
      else
        match d.getIndexedNameValue index with
        | .error e => .error e
        | .ok (name, _) => .ok (rest, name)
    match nameRes with
    | .error e => (d, .error e)
    | .ok (rest', name) =>
      match readPrefixedLengthString d rest' 7 with
      | .error e => (d, .error e)
      | .ok (rest'', value) =>
        (d.addEntry name value, .ok (rest'', ⟨name, value, false⟩))

/-- `Decoder.parseDynamicSizeUpdate` (`hpack.go`): the decoded size is
compared against the decoder's *current* `dynamicTableSizeMax` field. -/
def Decoder.parseDynamicSizeUpdate (d : Decoder) (encoded : Bytes) :
    Decoder × Except GoErr Bytes :=
  match d.DecodeInteger encoded 5 with
  | .error e => (d, .error e)
  | .ok (consumed, _, size) =>
    if (size : Int) > d.dynamicTableSizeMax then (d, .error .resizeTooLarge)
    else (d.SetDynamicTableMaxSize (size : Int), .ok consumed)

/-- `Decoder.parseHeaderFieldNotIndexed` (`hpack.go`), shared by the
never-indexed and not-indexed representations (4-bit prefix). -/
def Decoder.parseHeaderFieldNotIndexed (d : Decoder) (encoded : Bytes) :
    Except GoErr (Bytes × Header) :=
  match d.DecodeInteger encoded 4 with
  | .error e => .error e
  | .ok (rest, _, index) =>
    if index = 0 then
      match readPrefixedLengthString d rest 7 with
      | .error e => .error e
      | .ok (rest', name) =>
        match readPrefixedLengthString d rest' 7 with
        | .error e => .error e
        | .ok (rest'', value) => .ok (rest'', ⟨name, value, false⟩)
    else
      match d.getIndexedNameValue index with
      | .error e => .error e
      | .ok (name, _) =>
        match readPrefixedLengthString d rest 7 with
        | .error e => .error e
        | .ok (rest', value) => .ok (rest', ⟨name, value, false⟩)

/-- `Decoder.parseHeaderField` (`hpack.go`): dispatch on the high bits of the
first octet, in the source's order.  A size update yields no header
(`none`).  The final `else` arm (`encoded[0] & 0 == 0`) always holds, so the
trailing `panic(fmt.Errorf("unknown type..."))` is unreachable; it is kept as
`panicUnknownType`.  `Decode` only calls this with a non-empty buffer; on
`[]` the source's `encoded[0]` would itself panic. -/
def Decoder.parseHeaderField (d : Decoder) (encoded : Bytes) :
    Decoder × Except GoErr (Bytes × Option Header) :=
  match encoded with
  | [] => (d, .error .panicIndexOutOfRange)
  | b :: _ =>
    if b &&& headerFieldIndexed = headerFieldIndexed then
      match d.parseHeaderFieldIndexed encoded with
      | .error e => (d, .error e)
      | .ok (rest, h) => (d, .ok (rest, some h))
    else if b &&& headerFieldLiteralIncrementalIndex = headerFieldLiteralIncrementalIndex then
      match d.parseHeaderFieldIncrementalIndex encoded with
      | (d', .error e) => (d', .error e)
      | (d', .ok (rest, h)) => (d', .ok (rest, some h))
    else if b &&& headerFieldDynamicSizeUpdate = headerFieldDynamicSizeUpdate then
      match d.parseDynamicSizeUpdate encoded with
      | (d', .error e) => (d', .error e)
      | (d', .ok rest) => (d', .ok (rest, none))
    else if b &&& headerFieldLiteralNeverIndexed = headerFieldLiteralNeverIndexed then
      match d.parseHeaderFieldNotIndexed encoded with
      | .error e => (d, .error e)
      | .ok (rest, h) => (d, .ok (rest, some { h with sensitive := true }))
    else if b &&& headerFieldLiteralNotIndexed = headerFieldLiteralNotIndexed then
      match d.parseHeaderFieldNotIndexed encoded with
      | .error e => (d, .error e)
      | .ok (rest, h) => (d, .ok (rest, some h))
    else (d, .error .panicUnknownType)

/-- The `for len(buf) > 0` loop of `Decoder.Decode` (`hpack.go`).  Fuel
bounds the iteration count; each iteration consumes at least one octet, so
`Decode`'s fuel (`block.length + 1`) is never exhausted. -/
def decodeLoop : Nat → Decoder → Bytes → List Header → Decoder × Except GoErr (List Header)
  | 0, d, _, _ => (d, .error .outOfFuel)
  | _ + 1, d, [], headers => (d, .ok headers)
  | fuel + 1, d, b :: rest, headers =>
    match d.parseHeaderField (b :: rest) with
    | (d', .error e) => (d', .error e)
    | (d', .ok (buf', oh)) =>
      decodeLoop fuel d' buf'
        (match oh with
         | none => headers
         | some h => headers ++ [h])

/-- `Decoder.Decode` (`hpack.go`): parse a whole header block, preserving
order.  The decoder state is returned alongside (the source mutates the
receiver). -/
def Decoder.Decode (d : Decoder) (block : Bytes) : Decoder × Except GoErr (List Header) :=
  decodeLoop (block.length + 1) d block []

/-! ## The encoder (`hpack.go`) -/

/-- `Encoder.findHeaderInTable` (`hpack.go`): the static name+value map is
consulted only for a non-empty value, with the joined key `name ++ ":" ++
value`; then the dynamic table is scanned for a full match; then the static
name map.  `-1` means not found. -/
def Encoder.findHeaderInTable (e : Encoder) (name value : Bytes) : Int × Bool :=
  match (if value ≠ [] then staticTableEncodingWithValues (name ++ [58] ++ value) else none) with
  | some entry => ((entry : Int), true)
  | none =>
    match e.dynamicTable.findIdx? (fun h => h.name = name ∧ h.value = value) with
    | some x => ((staticTable.length : Int) + x + 1, true)
    | none =>
      match staticTableEncoding name with
      | some entry => ((entry : Int), false)
      | none => (-1, false)

/-- `findStaticEntryInTable` (`hpack.go`). -/
def findStaticEntryInTable (name : Bytes) : Int :=
  match staticTableEncoding name with
  | some entry => (entry : Int)
  | none => -1

/-- OR a flag into the first octet (`xs[0] |= flag` on a non-empty octet
slice produced by `encodeInteger`). -/
def orFirst (flag : Nat) : Bytes → Bytes
  | [] => []
  | b :: rest => (b ||| flag) :: rest

/-- `encodeLiteralString` (`hpack.go`). -/
def encodeLiteralString (str : Bytes) (prefixLength : Nat) (huffman : Bool) : Bytes :=
  let value := if huffman then HuffmanEncode str else str
  let valueLen := encodeInteger (value.length : Int) prefixLength
  let valueLen := if huffman then orFirst huffmanEncoded valueLen else valueLen
  valueLen ++ value

/-- `Encoder.encodeHeaderField` (`hpack.go`).  The result's error component
is the source's `error` return, which every path leaves `nil` (`.ok`).

The source first flushes a pending size update (appending its octets and
clearing the flag): here `pre`/`e1` are the flushed prefix and state.  The
incremental-indexing arm mutates the receiver via `addNewDynamicEntry`
(`e2`).  The octet appends are regrouped with `++` (same octet sequence). -/
def Encoder.encodeHeaderField (e : Encoder) (header : Header)
    (huffman addDynamicIndex : Bool) : Encoder × Except GoErr Bytes :=
  let pre : Bytes :=
    if e.pendingDynamicTableSizeUpdate then
      orFirst headerFieldDynamicSizeUpdate (encodeInteger e.dynamicTableSizeMax 5)
    else []
  let e1 : Encoder :=
    if e.pendingDynamicTableSizeUpdate then { e with pendingDynamicTableSizeUpdate := false }
    else e
  if header.sensitive then
    let index := findStaticEntryInTable header.name
    if index ≠ -1 then
      (e1, .ok (pre ++ orFirst headerFieldLiteralNeverIndexed (encodeInteger index 4)
        ++ encodeLiteralString header.value 7 huffman))
    else
      (e1, .ok (pre ++ orFirst headerFieldLiteralNeverIndexed (encodeInteger 0 4)
        ++ encodeLiteralString header.name 7 huffman
        ++ encodeLiteralString header.value 7 huffman))
  else
    let fh := e1.findHeaderInTable header.name header.value
    if fh.1 ≠ -1 ∧ fh.2 then
      (e1, .ok (pre ++ orFirst headerFieldIndexed (encodeInteger fh.1 7)))
    else
      let indexed := if fh.1 = -1 then encodeInteger 0 6 else encodeInteger fh.1 6
      let indexed :=
        if addDynamicIndex then orFirst headerFieldLiteralIncrementalIndex indexed
        else orFirst headerFieldLiteralNotIndexed indexed
      let e2 := if addDynamicIndex then e1.addEntry header.name header.value else e1
      let nameLit :=
        if fh.1 = -1 then encodeLiteralString header.name 7 huffman else []
      (e2, .ok (pre ++ indexed ++ nameLit ++ encodeLiteralString header.value 7 huffman))

/-- `Encoder.EncodeNoDynamicIndexing` (`hpack.go`). -/
def Encoder.EncodeNoDynamicIndexing (e : Encoder) (header : Header) (huffman : Bool) :
    Encoder × Except GoErr Bytes :=
  e.encodeHeaderField header huffman false

/-- `Encoder.EncodeIndexed` (`hpack.go`). -/
def Encoder.EncodeIndexed (e : Encoder) (header : Header) (huffman : Bool) :
    Encoder × Except GoErr Bytes :=
  e.encodeHeaderField header huffman true

/-- The loop of `Encoder.encode` (`hpack.go`): `EncodeIndexed` each header,
concatenating the output. -/
def Encoder.encodeList (e : Encoder) (headers : List Header) (huffman : Bool)
    (acc : Bytes) : Encoder × Except GoErr Bytes :=
  match headers with
  | [] => (e, .ok acc)
  | h :: rest =>
    match e.EncodeIndexed h huffman with
    | (e', .error err) => (e', .error err)
    | (e', .ok enc) => e'.encodeList rest huffman (acc ++ enc)

/-- `Encoder.encode` (`hpack.go`). -/
def Encoder.encode (e : Encoder) (headers : List Header) (huffman : Bool) :
    Encoder × Except GoErr Bytes :=
  e.encodeList headers huffman []

/-- `Encoder.Encode` (`hpack.go`): the convenience entry point — incremental
indexing, Huffman on. -/
def Encoder.Encode (e : Encoder) (headers : List Header) : Encoder × Except GoErr Bytes :=
  e.encode headers true

/-! ## Specification predicates used by the theorems -/

/-- The RFC size of a dynamic table: the sum of `32 + |name| + |value|` over
its entries. -/
def sumOctets (tbl : List Header) : Int := (tbl.map entryOctets).sum

/-- The dynamic-table invariant of the spec (§3, §8): the tracked current
size is the sum of the entry sizes and does not exceed the cap. -/
def goodTable (tbl : List Header) (cur max : Int) : Prop :=
  cur = sumOctets tbl ∧ cur ≤ max

/-- `goodTable` for a decoder state. -/
def Decoder.good (d : Decoder) : Prop :=
  goodTable d.dynamicTable d.dynamicTableSizeCurrent d.dynamicTableSizeMax

/-- `goodTable` for an encoder state. -/
def Encoder.good (e : Encoder) : Prop :=
  goodTable e.dynamicTable e.dynamicTableSizeCurrent e.dynamicTableSizeMax

/-- Spec-analysis helper: the first `k` bits of a stream, zero-padded to
length `k` — the contents of a `k`-bit peek window. -/
def padTo : Nat → List Bool → List Bool
  | 0, _ => []
  | k + 1, [] => false :: padTo k []
  | k + 1, b :: t => b :: padTo k t

/-- Spec-analysis helper: a Huffman table entry is well formed — the code
value fits in its bit length, which lies in `[5, 30]`. -/
def codeEntryOK (e : Nat × Nat) : Bool :=
  decide (e.1 < 2 ^ e.2) && decide (5 ≤ e.2) && decide (e.2 ≤ 30)

/-- Spec-analysis helper: neither entry's codeword is a prefix of the
other's. -/
def pairOK (a b : Nat × Nat) : Bool :=
  !(decide (a.2 ≤ b.2) && decide (b.1 >>> (b.2 - a.2) = a.1)) &&
  !(decide (b.2 ≤ a.2) && decide (a.1 >>> (a.2 - b.2) = b.1))

/-- Spec-analysis helper: pairwise prefix-freeness of a code table. -/
def pairwiseOK : List (Nat × Nat) → Bool
  | [] => true
  | e :: t => t.all (pairOK e) && pairwiseOK t

/-! ## END OF DEFINITIONS; theorems follow -/

/-! ### Dynamic-table size accounting (C3) -/

lemma entryOctets_pos (h : Header) : 0 < entryOctets h := by
  simp only [entryOctets]
  positivity

lemma sumOctets_nil : sumOctets [] = 0 := rfl

lemma sumOctets_cons (h : Header) (t : List Header) :
    sumOctets (h :: t) = entryOctets h + sumOctets t := by
  simp [sumOctets]

lemma sumOctets_append (a b : List Header) :
    sumOctets (a ++ b) = sumOctets a + sumOctets b := by
  simp [sumOctets]

lemma sumOctets_nonneg (tbl : List Header) : 0 ≤ sumOctets tbl := by
  induction tbl with
  | nil => simp [sumOctets_nil]
  | cons h t ih =>
    have := entryOctets_pos h
    rw [sumOctets_cons]
    omega

lemma sumOctets_eq_zero {tbl : List Header} (h : sumOctets tbl = 0) : tbl = [] := by
  cases tbl with
  | nil => rfl
  | cons x xs =>
    exfalso
    have h1 := entryOctets_pos x
    have h2 := sumOctets_nonneg xs
    rw [sumOctets_cons] at h
    omega

lemma sumOctets_last_decomp (x : Header) (xs : List Header) :
    sumOctets (x :: xs)
      = sumOctets ((x :: xs).dropLast) + entryOctets ((x :: xs).getLast (by simp)) := by
  induction xs generalizing x with
  | nil => simp [sumOctets_cons, sumOctets_nil]
  | cons y ys ih =>
    have hg : (x :: y :: ys).getLast (by simp) = (y :: ys).getLast (by simp) :=
      List.getLast_cons (by simp)
    rw [sumOctets_cons, ih y, List.dropLast_cons₂, sumOctets_cons, hg]
    ring

/-- Behaviour of `evictEntries` when the tracked size is consistent: the
result stays consistent; on success the freed space suffices; on failure the
table has been emptied down to size 0. -/
lemma evictEntries_spec (tbl : List Header) (cur add max : Int) :
    cur = sumOctets tbl →
    (evictEntries tbl cur add max).2.1 = sumOctets (evictEntries tbl cur add max).1 ∧
      ((evictEntries tbl cur add max).2.2 = true →
        (evictEntries tbl cur add max).2.1 + add ≤ max) ∧
      ((evictEntries tbl cur add max).2.2 = false →
        (evictEntries tbl cur add max).1 = [] ∧ (evictEntries tbl cur add max).2.1 = 0) := by
  induction tbl, cur, add, max using evictEntries.induct with
  | case1 cur add max hgt =>
    intro hsum
    rw [evictEntries.eq_def, if_pos hgt]
    have h0 : cur = 0 := by rw [hsum]; rfl
    exact ⟨hsum, fun h => absurd h (by simp), fun _ => ⟨rfl, h0⟩⟩
  | case2 cur add max hgt x xs evicted ih =>
    intro hsum
    rw [evictEntries.eq_def, if_pos hgt]
    exact ih (by
      have hd := sumOctets_last_decomp x xs
      show cur - entryOctets ((x :: xs).getLast (by simp)) = sumOctets (x :: xs).dropLast
      rw [hsum, hd]
      ring)
  | case3 tbl cur add max hle =>
    intro hsum
    rw [evictEntries.eq_def, if_neg hle]
    exact ⟨hsum, fun _ => show cur + add ≤ max by omega, fun h => absurd h (by simp)⟩

/-- Behaviour of `addNewDynamicEntry` under the invariant: the result is
consistent and within a non-negative cap; an entry whose own size exceeds the
cap leaves the table empty at size 0. -/
lemma addNewDynamicEntry_spec (tbl : List Header) (cur max : Int) (name value : Bytes)
    (hsum : cur = sumOctets tbl) (hle : cur ≤ max) (hmax : 0 ≤ max) :
    ((addNewDynamicEntry tbl cur max name value).2
        = sumOctets (addNewDynamicEntry tbl cur max name value).1 ∧
      (addNewDynamicEntry tbl cur max name value).2 ≤ max) ∧
      ((32 + (name.length : Int) + value.length > max) →
        (addNewDynamicEntry tbl cur max name value).1 = [] ∧
        (addNewDynamicEntry tbl cur max name value).2 = 0) := by
  have hspec := evictEntries_spec tbl cur (32 + (name.length : Int) + value.length) max hsum
  rw [addNewDynamicEntry]
  rcases hev : evictEntries tbl cur (32 + (name.length : Int) + value.length) max
    with ⟨tbl', cur', ok⟩
  rw [hev] at hspec
  simp only at hspec
  cases ok with
  | false =>
    try simp only
    have hf := hspec.2.2 rfl
    refine ⟨⟨?_, ?_⟩, fun _ => hf⟩
    · rw [hf.1, hf.2, sumOctets_nil]
    · rw [hf.2]
      exact hmax
  | true =>
    try simp only
    have hfit := hspec.2.1 rfl
    have hnn : 0 ≤ sumOctets tbl' := sumOctets_nonneg tbl'
    refine ⟨⟨?_, by omega⟩, fun hbig => ?_⟩
    · rw [sumOctets_cons, hspec.1]
      simp only [entryOctets]
      ring
    · exfalso
      omega

lemma goByte_eq_self {v : Nat} (h : v < 256) : goByte (v : Int) = v := by
  have hmod : ((v : Int)).emod 256 = (v : Int) :=
    Int.emod_eq_of_lt (by positivity) (by exact_mod_cast h)
  simp [goByte, hmod]

lemma and_top_bit_eq_zero {b : Nat} (h : b < 128) : b &&& (1 <<< 7) = 0 := by
  have : b &&& 2 ^ 7 = 0 := by
    rw [Nat.and_two_pow, Nat.testBit_lt_two_pow h]
    rfl
  simpa [Nat.shiftLeft_eq] using this

lemma and_top_bit_ne_zero {b : Nat} (h1 : 128 ≤ b) (h2 : b < 256) :
    b &&& (1 <<< 7) ≠ 0 := by
  have ht : b.testBit 7 = true := by
    simp only [Nat.testBit_to_div_mod, decide_eq_true_eq,
      show (2 : Nat) ^ 7 = 128 from rfl]
    omega
  have : b &&& 2 ^ 7 = 2 ^ 7 := by
    rw [Nat.and_two_pow, ht]
    rfl
  simp only [Nat.shiftLeft_eq, one_mul]
  omega

lemma and_127_of_lt {r : Nat} (h : r < 128) : r &&& 127 = r := by
  have h1 : r &&& 2 ^ 7 - 1 = r % 2 ^ 7 := Nat.and_pow_two_sub_one_eq_mod r 7
  have h2 : r % 2 ^ 7 = r := Nat.mod_eq_of_lt (by omega)
  rw [h2] at h1
  exact h1

lemma and_127_cont (r : Nat) : (r % 128 + 128) &&& 127 = r % 128 := by
  have h1 : (r % 128 + 128) &&& 2 ^ 7 - 1 = (r % 128 + 128) % 2 ^ 7 :=
    Nat.and_pow_two_sub_one_eq_mod _ 7
  have h2 : (r % 128 + 128) % 2 ^ 7 = r % 128 := by
    have h7 : (2 : Nat) ^ 7 = 128 := by norm_num
    omega
  rw [h2] at h1
  exact h1

/-- The terminating octet of `encodeIntCont` (a single octet `r < 128`) is
consumed by `decodeIntLoop` with the value check passing. -/
lemma decodeIntLoop_last (intMax lenMax : Int) (r n m idx : Nat) (hsmall : r < 128)
    (hmax : (n : Int) + r * 2 ^ m ≤ intMax) :
    decodeIntLoop intMax lenMax (encodeIntCont r) n m idx = .ok ([], n + r * 2 ^ m) := by
  rw [encodeIntCont, if_neg (by omega)]
  show (if r &&& 1 <<< 7 = 0 then _ else _) = _
  rw [if_pos (and_top_bit_eq_zero hsmall), and_127_of_lt hsmall,
    if_neg (by push_cast at hmax ⊢; omega)]

/-- `decodeIntLoop` inverts `encodeIntCont`, accumulating `r · 2^m` onto `n`:
for `r < 128^k` and `idx + k` within the encoded-length budget, the loop
consumes the whole continuation sequence and neither limit fires. -/
lemma decodeIntLoop_encodeIntCont (intMax lenMax : Int) :
    ∀ (k r n m idx : Nat), r < 128 ^ k → (idx : Int) + k ≤ lenMax →
      ((n : Int) + r * 2 ^ m ≤ intMax) →
      decodeIntLoop intMax lenMax (encodeIntCont r) n m idx = .ok ([], n + r * 2 ^ m) := by
  intro k
  induction k with
  | zero =>
    intro r n m idx hr _ hmax
    exact decodeIntLoop_last intMax lenMax r n m idx (by omega) hmax
  | succ k ih =>
    intro r n m idx hr hlen hmax
    by_cases hsmall : r < 128
    · exact decodeIntLoop_last intMax lenMax r n m idx hsmall hmax
    · -- continuation octet `(r % 128) + 128`, then recurse on `r / 128`
      have hk1 : 1 ≤ k := by
        rcases Nat.eq_zero_or_pos k with hk0 | hk0
        · subst hk0
          norm_num at hr
          omega
        · exact hk0
      rw [encodeIntCont, if_pos (by omega)]
      show (if (r % 128 + 128) &&& 1 <<< 7 = 0 then _ else _) = _
      rw [if_neg (and_top_bit_ne_zero (by omega) (by omega)), and_127_cont r]
      rw [if_neg (show ¬((idx : Int) + 1 = lenMax) by push_cast at hlen ⊢; omega)]
      have hdiv : r / 128 < 128 ^ k := by
        rw [Nat.div_lt_iff_lt_mul (by omega)]
        calc r < 128 ^ (k + 1) := hr
        _ = 128 ^ k * 128 := by ring
      have hval : (n + r % 128 * 2 ^ m : Nat) + (r / 128) * 2 ^ (m + 7) = n + r * 2 ^ m := by
        have hmd : r % 128 + 128 * (r / 128) = r := Nat.mod_add_div r 128
        calc (n + r % 128 * 2 ^ m : Nat) + (r / 128) * 2 ^ (m + 7)
            = n + (r % 128 + 128 * (r / 128)) * 2 ^ m := by ring
        _ = n + r * 2 ^ m := by rw [hmd]
      rw [ih (r / 128) (n + r % 128 * 2 ^ m) (m + 7) (idx + 1) hdiv
        (by push_cast at hlen ⊢; omega)
        (by
          rw [show ((n + r % 128 * 2 ^ m : Nat) : Int) + ((r / 128 : Nat) : Int) * 2 ^ (m + 7)
              = (((n + r % 128 * 2 ^ m) + (r / 128) * 2 ^ (m + 7) : Nat) : Int) by push_cast; ring,
            hval]
          exact_mod_cast hmax)]
      rw [hval]


/-- `Decoder.addEntry` preserves the invariant for a non-negative cap, and
does not change the cap. -/
lemma Decoder.goodAddEntryDec {d : Decoder} (hg : d.good)
    (hm : 0 ≤ d.dynamicTableSizeMax) (name value : Bytes) :
    (d.addEntry name value).good ∧
      (d.addEntry name value).dynamicTableSizeMax = d.dynamicTableSizeMax := by
  obtain ⟨hsum, hle⟩ := hg
  have h := addNewDynamicEntry_spec d.dynamicTable d.dynamicTableSizeCurrent
    d.dynamicTableSizeMax name value hsum hle hm
  exact ⟨⟨h.1.1, h.1.2⟩, rfl⟩

/-- `Encoder.addEntry` preserves the invariant for a non-negative cap, and
does not change the cap or the pending flag. -/
lemma Encoder.goodAddEntryEnc {e : Encoder} (hg : e.good)
    (hm : 0 ≤ e.dynamicTableSizeMax) (name value : Bytes) :
    (e.addEntry name value).good ∧
      (e.addEntry name value).dynamicTableSizeMax = e.dynamicTableSizeMax := by
  obtain ⟨hsum, hle⟩ := hg
  have h := addNewDynamicEntry_spec e.dynamicTable e.dynamicTableSizeCurrent
    e.dynamicTableSizeMax name value hsum hle hm
  exact ⟨⟨h.1.1, h.1.2⟩, rfl⟩

/-- `Decoder.SetDynamicTableMaxSize` re-establishes the invariant for any
non-negative new cap. -/
lemma Decoder.goodSetMaxDec {d : Decoder} (hg : d.good) {newMax : Int}
    (hm : 0 ≤ newMax) : (d.SetDynamicTableMaxSize newMax).good := by
  obtain ⟨hsum, _⟩ := hg
  have h := evictEntries_spec d.dynamicTable d.dynamicTableSizeCurrent 0 newMax hsum
  constructor
  · exact h.1
  · rcases hb : (evictEntries d.dynamicTable d.dynamicTableSizeCurrent 0 newMax).2.2 with _ | _
    · have := h.2.2 hb
      show (evictEntries d.dynamicTable d.dynamicTableSizeCurrent 0 newMax).2.1 ≤ newMax
      omega
    · have := h.2.1 hb
      show (evictEntries d.dynamicTable d.dynamicTableSizeCurrent 0 newMax).2.1 ≤ newMax
      omega

/-- `Encoder.SetDynamicTableMaxSize` re-establishes the invariant for any
non-negative new cap. -/
lemma Encoder.goodSetMaxEnc {e : Encoder} (hg : e.good) {newMax : Int}
    (hm : 0 ≤ newMax) : (e.SetDynamicTableMaxSize newMax).good := by
  obtain ⟨hsum, _⟩ := hg
  have h := evictEntries_spec e.dynamicTable e.dynamicTableSizeCurrent 0 newMax hsum
  constructor
  · exact h.1
  · rcases hb : (evictEntries e.dynamicTable e.dynamicTableSizeCurrent 0 newMax).2.2 with _ | _
    · have := h.2.2 hb
      show (evictEntries e.dynamicTable e.dynamicTableSizeCurrent 0 newMax).2.1 ≤ newMax
      omega
    · have := h.2.1 hb
      show (evictEntries e.dynamicTable e.dynamicTableSizeCurrent 0 newMax).2.1 ≤ newMax
      omega

/-- The decoder state coming out of `parseHeaderFieldIncrementalIndex` is
either unchanged or an `addEntry` result. -/
lemma parseIncr_state (d : Decoder) (encoded : Bytes) :
    (d.parseHeaderFieldIncrementalIndex encoded).1 = d ∨
      ∃ n v, (d.parseHeaderFieldIncrementalIndex encoded).1 = d.addEntry n v := by
  rw [Decoder.parseHeaderFieldIncrementalIndex]
  rcases d.DecodeInteger encoded 6 with e | ⟨rest, pre, index⟩
  · exact Or.inl rfl
  · simp only
    rcases (if index = 0 then readPrefixedLengthString d rest 7
      else
        match d.getIndexedNameValue index with
        | .error e => .error e
        | .ok (name, _) => .ok (rest, name)) with e | ⟨rest2, name⟩
    · exact Or.inl rfl
    · simp only
      rcases readPrefixedLengthString d rest2 7 with e | ⟨rest3, value⟩
      · exact Or.inl rfl
      · exact Or.inr ⟨name, value, rfl⟩

/-- The decoder state coming out of `parseDynamicSizeUpdate` is either
unchanged or resized to a decoded (hence non-negative) cap. -/
lemma parseSizeUpdate_state (d : Decoder) (encoded : Bytes) :
    (d.parseDynamicSizeUpdate encoded).1 = d ∨
      ∃ s : Nat, (d.parseDynamicSizeUpdate encoded).1 = d.SetDynamicTableMaxSize (s : Int) := by
  rw [Decoder.parseDynamicSizeUpdate]
  rcases d.DecodeInteger encoded 5 with e | ⟨consumed, pre, size⟩
  · exact Or.inl rfl
  · simp only
    split
    · exact Or.inl rfl
    · exact Or.inr ⟨size, rfl⟩

/-- The decoder state coming out of `parseHeaderField` is unchanged, an
`addEntry` result, or a resize to a decoded cap. -/
lemma parseHeaderField_state (d : Decoder) (block : Bytes) :
    (d.parseHeaderField block).1 = d ∨
      (∃ n v, (d.parseHeaderField block).1 = d.addEntry n v) ∨
      (∃ s : Nat, (d.parseHeaderField block).1 = d.SetDynamicTableMaxSize (s : Int)) := by
  cases block with
  | nil => exact Or.inl rfl
  | cons b rest =>
    rw [Decoder.parseHeaderField]
    split
    · rcases d.parseHeaderFieldIndexed (b :: rest) with e | ⟨r, h⟩
      · exact Or.inl rfl
      · exact Or.inl rfl
    split
    · have h := parseIncr_state d (b :: rest)
      rcases hI : d.parseHeaderFieldIncrementalIndex (b :: rest) with ⟨d', e | ⟨r, hd⟩⟩ <;>
        rw [hI] at h <;> simp only at h ⊢
      · rcases h with h | ⟨n, v, h⟩
        · exact Or.inl h
        · exact Or.inr (Or.inl ⟨n, v, h⟩)
      · rcases h with h | ⟨n, v, h⟩
        · exact Or.inl h
        · exact Or.inr (Or.inl ⟨n, v, h⟩)
    split
    · have h := parseSizeUpdate_state d (b :: rest)
      rcases hU : d.parseDynamicSizeUpdate (b :: rest) with ⟨d', e | r⟩ <;>
        rw [hU] at h <;> simp only at h ⊢
      · rcases h with h | ⟨s, h⟩
        · exact Or.inl h
        · exact Or.inr (Or.inr ⟨s, h⟩)
      · rcases h with h | ⟨s, h⟩
        · exact Or.inl h
        · exact Or.inr (Or.inr ⟨s, h⟩)
    split
    · rcases d.parseHeaderFieldNotIndexed (b :: rest) with e | ⟨r, h⟩
      · exact Or.inl rfl
      · exact Or.inl rfl
    split
    · rcases d.parseHeaderFieldNotIndexed (b :: rest) with e | ⟨r, h⟩
      · exact Or.inl rfl
      · exact Or.inl rfl
    · exact Or.inl rfl

/-- Well-formedness carried through the decoder: the invariant plus a
non-negative cap. -/
def Decoder.wf (d : Decoder) : Prop := d.good ∧ 0 ≤ d.dynamicTableSizeMax

lemma Decoder.wf_parseHeaderField {d : Decoder} (hw : d.wf) (block : Bytes) :
    (d.parseHeaderField block).1.wf := by
  rcases parseHeaderField_state d block with h | ⟨n, v, h⟩ | ⟨s, h⟩ <;> rw [h]
  · exact hw
  · obtain ⟨hg, hmax⟩ := Decoder.goodAddEntryDec hw.1 hw.2 n v
    exact ⟨hg, by rw [hmax]; exact hw.2⟩
  · exact ⟨Decoder.goodSetMaxDec hw.1 (Int.natCast_nonneg s), Int.natCast_nonneg s⟩

lemma Decoder.wf_decodeLoop {d : Decoder} (hw : d.wf) :
    ∀ (fuel : Nat) (buf : Bytes) (headers : List Header),
      (decodeLoop fuel d buf headers).1.wf := by
  intro fuel
  induction fuel generalizing d with
  | zero => intro buf headers; exact hw
  | succ fuel ih =>
    intro buf headers
    cases buf with
    | nil => exact hw
    | cons b rest =>
      rw [decodeLoop]
      have hw' := Decoder.wf_parseHeaderField hw (b :: rest)
      rcases hP : d.parseHeaderField (b :: rest) with ⟨d', e | ⟨buf2, oh⟩⟩ <;>
        rw [hP] at hw' <;> simp only at hw' ⊢
      · exact hw'
      · exact ih hw' _ _


/-- The encoder state coming out of `encodeHeaderField` has the same table
fields as the input state (possibly with the pending flag cleared), or is an
`addEntry` on such a state. -/
lemma encodeHeaderField_state (e : Encoder) (h : Header) (hf ai : Bool) :
    ∃ e₀ : Encoder,
      e₀.dynamicTable = e.dynamicTable ∧
      e₀.dynamicTableSizeCurrent = e.dynamicTableSizeCurrent ∧
      e₀.dynamicTableSizeMax = e.dynamicTableSizeMax ∧
      ((e.encodeHeaderField h hf ai).1 = e₀ ∨
        (e.encodeHeaderField h hf ai).1 = e₀.addEntry h.name h.value) := by
  refine ⟨if e.pendingDynamicTableSizeUpdate then { e with pendingDynamicTableSizeUpdate := false }
      else e, by split <;> rfl, by split <;> rfl, by split <;> rfl, ?_⟩
  rw [Encoder.encodeHeaderField]
  try simp only []
  repeat' split
  all_goals
    first
      | exact Or.inl rfl
      | exact Or.inr rfl

/-- Well-formedness carried through the encoder: the invariant plus a
non-negative cap. -/
def Encoder.wf (e : Encoder) : Prop := e.good ∧ 0 ≤ e.dynamicTableSizeMax

lemma Encoder.wf_encodeHeaderField {e : Encoder} (hw : e.wf) (h : Header)
    (hf ai : Bool) : (e.encodeHeaderField h hf ai).1.wf := by
  obtain ⟨e₀, ht, hc, hm, hres⟩ := encodeHeaderField_state e h hf ai
  have hw₀ : e₀.wf := by
    refine ⟨?_, ?_⟩
    · show goodTable e₀.dynamicTable e₀.dynamicTableSizeCurrent e₀.dynamicTableSizeMax
      rw [ht, hc, hm]
      exact hw.1
    · rw [hm]
      exact hw.2
  rcases hres with hres | hres <;> rw [hres]
  · exact hw₀
  · obtain ⟨hg, hmx⟩ := Encoder.goodAddEntryEnc hw₀.1 hw₀.2 h.name h.value
    exact ⟨hg, by rw [hmx]; exact hw₀.2⟩

lemma Encoder.wf_encodeList {e : Encoder} (hw : e.wf) :
    ∀ (headers : List Header) (hf : Bool) (acc : Bytes),
      (e.encodeList headers hf acc).1.wf := by
  intro headers
  induction headers generalizing e with
  | nil => intro hf acc; exact hw
  | cons h rest ih =>
    intro hf acc
    rw [Encoder.encodeList]
    have hw' := Encoder.wf_encodeHeaderField hw h hf true
    rcases hE : e.EncodeIndexed h hf with ⟨e', err | enc⟩ <;>
      rw [Encoder.EncodeIndexed] at hE <;> rw [hE] at hw' <;> simp only at hw' ⊢
    · exact hw'
    · exact ih hw' _ _

/-- C2.  Integer round-trip.**  For every value `v` up to the default
`integerValueMax = 2^32 − 1` and every prefix length `N ∈ [1,8]`, decoding the
octets produced by `encodeInteger v N` under the default decoder limits
consumes the whole buffer and returns `v` (with zero flag bits) and no
error. -/
theorem decodeInteger_encodeInteger (v N : Nat) (h1 : 1 ≤ N) (h8 : N ≤ 8)
    (hv : (v : Int) ≤ DefaultMaxIntegerValue) :
    decodeInteger (encodeInteger (v : Int) N) N
      DefaultMaxIntegerValue DefaultMaxIntegerEncodedLength = .ok ([], 0, v) := by
  have hpow : ((2 : Int) ^ N - 1) = ((2 ^ N - 1 : Nat) : Int) := by
    push_cast [Nat.one_le_two_pow]
    ring
  have hplt : 2 ^ N - 1 < 256 := by
    have : (2 : Nat) ^ N ≤ 2 ^ 8 := Nat.pow_le_pow_right (by omega) h8
    omega
  have hmask : (1 <<< N) - 1 = 2 ^ N - 1 := by simp [Nat.shiftLeft_eq]
  by_cases hlt : v < 2 ^ N - 1
  · rw [encodeInteger, if_pos (by rw [hpow]; exact_mod_cast hlt),
      goByte_eq_self (by omega)]
    simp only [decodeInteger, hmask]
    have hand : (2 ^ N - 1) &&& v = v := by
      rw [Nat.and_comm]
      have := Nat.and_pow_two_sub_one_eq_mod v N
      simpa [Nat.mod_eq_of_lt (by omega : v < 2 ^ N)] using this
    have hsh : (v >>> N) <<< N = 0 := by
      have : v >>> N = 0 := by
        rw [Nat.shiftRight_eq_div_pow]
        exact Nat.div_eq_of_lt (by omega)
      simp [this]
    rw [hand, hsh, if_pos (by omega)]
  · have henc : encodeInteger (v : Int) N
        = (2 ^ N - 1 : Nat) :: encodeIntCont (v - (2 ^ N - 1)) := by
      rw [encodeInteger, if_neg (by rw [hpow]; push_cast; omega), hpow,
        goByte_eq_self hplt]
      have htn : ((v : Int) - ((2 ^ N - 1 : Nat) : Int)).toNat = v - (2 ^ N - 1) := by
        generalize (2 : Nat) ^ N - 1 = M at hlt ⊢
        omega
      rw [htn]
    rw [henc]
    simp only [decodeInteger, hmask]
    have hand : (2 ^ N - 1) &&& (2 ^ N - 1) = 2 ^ N - 1 := Nat.and_self _
    have hsh : ((2 ^ N - 1) >>> N) <<< N = 0 := by
      have h2 : (2 ^ N - 1) >>> N = 0 := by
        rw [Nat.shiftRight_eq_div_pow]
        have h0 : 0 < (2 : Nat) ^ N := pow_pos (by omega) N
        exact Nat.div_eq_of_lt (by omega)
      simp [h2]
    rw [hand, hsh, if_neg (by simp)]
    have hloop := decodeIntLoop_encodeIntCont DefaultMaxIntegerValue
      DefaultMaxIntegerEncodedLength 5 (v - (2 ^ N - 1)) (2 ^ N - 1) 0 1
      (by
        have hD : DefaultMaxIntegerValue = 4294967295 := by decide
        rw [hD] at hv
        have hv' : v ≤ 4294967295 := by exact_mod_cast hv
        have h5 : (128 : Nat) ^ 5 = 34359738368 := by norm_num
        omega)
      (by norm_num [DefaultMaxIntegerEncodedLength])
      (by
        have hD : DefaultMaxIntegerValue = 4294967295 := by decide
        rw [hD] at hv ⊢
        simp only [pow_zero, mul_one]
        generalize (2 : Nat) ^ N - 1 = M at hlt ⊢
        omega)
    rw [hloop]
    have hfin : (2 ^ N - 1) + (v - (2 ^ N - 1)) * 2 ^ 0 = v := by
      simp only [pow_zero, mul_one]
      generalize (2 : Nat) ^ N - 1 = M at hlt ⊢
      omega
    rw [hfin]

/-- Witness for C2 at the RFC 7541 C.1.2 vector `v = 1337`, `N = 5`. -/
theorem decodeInteger_encodeInteger_witness :
    1 ≤ 5 ∧ 5 ≤ 8 ∧ ((1337 : Nat) : Int) ≤ DefaultMaxIntegerValue ∧
      decodeInteger (encodeInteger ((1337 : Nat) : Int) 5) 5
        DefaultMaxIntegerValue DefaultMaxIntegerEncodedLength = .ok ([], 0, 1337) :=
  ⟨by decide, by decide, by decide,
    decodeInteger_encodeInteger 1337 5 (by decide) (by decide) (by decide)⟩


/-- C3.  Dynamic-table size invariant.**  For codecs with a non-negative
cap, every operation — creation, insertion via `addNewDynamicEntry`, resize
via `SetDynamicTableMaxSize`, any `Decode` or encode call — preserves
`current_size = Σ (32 + |name| + |value|)` over the dynamic-table entries and
`current_size ≤ max_size`; and inserting an entry whose own size exceeds the
cap leaves the table empty with current size 0. -/
theorem dynamicTable_invariants :
    (∀ max : Int, 0 ≤ max → (NewDecoder max).good ∧ (NewEncoder max).good) ∧
    (∀ (d : Decoder) (name value : Bytes), d.good → 0 ≤ d.dynamicTableSizeMax →
      (d.addEntry name value).good) ∧
    (∀ (e : Encoder) (name value : Bytes), e.good → 0 ≤ e.dynamicTableSizeMax →
      (e.addEntry name value).good) ∧
    (∀ (d : Decoder) (newMax : Int), d.good → 0 ≤ newMax →
      (d.SetDynamicTableMaxSize newMax).good) ∧
    (∀ (e : Encoder) (newMax : Int), e.good → 0 ≤ newMax →
      (e.SetDynamicTableMaxSize newMax).good) ∧
    (∀ (d : Decoder) (block : Bytes), d.good → 0 ≤ d.dynamicTableSizeMax →
      (d.Decode block).1.good) ∧
    (∀ (e : Encoder) (h : Header) (hf ai : Bool), e.good → 0 ≤ e.dynamicTableSizeMax →
      (e.encodeHeaderField h hf ai).1.good) ∧
    (∀ (e : Encoder) (hs : List Header) (hf : Bool), e.good → 0 ≤ e.dynamicTableSizeMax →
      (e.encode hs hf).1.good) ∧
    (∀ (d : Decoder) (name value : Bytes), d.good → 0 ≤ d.dynamicTableSizeMax →
      32 + (name.length : Int) + value.length > d.dynamicTableSizeMax →
      (d.addEntry name value).dynamicTable = [] ∧
      (d.addEntry name value).dynamicTableSizeCurrent = 0) := by
  refine ⟨?_, ?_, ?_, ?_, ?_, ?_, ?_, ?_, ?_⟩
  · intro max hm
    exact ⟨⟨by simp [NewDecoder, sumOctets_nil], by simpa [NewDecoder] using hm⟩,
      ⟨by simp [NewEncoder, sumOctets_nil], by simpa [NewEncoder] using hm⟩⟩
  · intro d name value hg hm
    exact (Decoder.goodAddEntryDec hg hm name value).1
  · intro e name value hg hm
    exact (Encoder.goodAddEntryEnc hg hm name value).1
  · intro d newMax hg hm
    exact Decoder.goodSetMaxDec hg hm
  · intro e newMax hg hm
    exact Encoder.goodSetMaxEnc hg hm
  · intro d block hg hm
    exact (Decoder.wf_decodeLoop ⟨hg, hm⟩ (block.length + 1) block []).1
  · intro e h hf ai hg hm
    exact (Encoder.wf_encodeHeaderField ⟨hg, hm⟩ h hf ai).1
  · intro e hs hf hg hm
    exact (Encoder.wf_encodeList ⟨hg, hm⟩ hs hf []).1
  · intro d name value hg hm hbig
    have h := addNewDynamicEntry_spec d.dynamicTable d.dynamicTableSizeCurrent
      d.dynamicTableSizeMax name value hg.1 hg.2 hm
    exact h.2 hbig

/-- Witness for C3: the invariant after decoding the block `[0x82]` on a
fresh decoder with cap 256. -/
theorem dynamicTable_invariants_witness :
    (NewDecoder 256).good ∧ 0 ≤ (NewDecoder 256).dynamicTableSizeMax ∧
      ((NewDecoder 256).Decode [130]).1.good := by
  have h := dynamicTable_invariants
  refine ⟨(h.1 256 (by decide)).1, by decide, ?_⟩
  exact h.2.2.2.2.2.1 (NewDecoder 256) [130] (h.1 256 (by decide)).1 (by decide)

/-- C10.  The encoder never fails.**  `encodeHeaderField` — hence
`EncodeIndexed`, `EncodeNoDynamicIndexing`, `encode` and `Encode` — returns
`.ok` on every input: no encoding path constructs an error. -/
theorem encoder_never_fails :
    (∀ (e : Encoder) (h : Header) (hf ai : Bool),
      ∃ bs, (e.encodeHeaderField h hf ai).2 = .ok bs) ∧
    (∀ (e : Encoder) (h : Header) (hf : Bool),
      (∃ bs, (e.EncodeIndexed h hf).2 = .ok bs) ∧
      (∃ bs, (e.EncodeNoDynamicIndexing h hf).2 = .ok bs)) ∧
    (∀ (e : Encoder) (hs : List Header) (hf : Bool) (acc : Bytes),
      ∃ bs, (e.encodeList hs hf acc).2 = .ok bs) ∧
    (∀ (e : Encoder) (hs : List Header), ∃ bs, (e.Encode hs).2 = .ok bs) := by
  have hfield : ∀ (e : Encoder) (h : Header) (hf ai : Bool),
      ∃ bs, (e.encodeHeaderField h hf ai).2 = .ok bs := by
    intro e h hf ai
    rw [Encoder.encodeHeaderField]
    try simp only []
    repeat' split
    all_goals exact ⟨_, rfl⟩
  have hlist : ∀ (hs : List Header) (e : Encoder) (hf : Bool) (acc : Bytes),
      ∃ bs, (e.encodeList hs hf acc).2 = .ok bs := by
    intro hs
    induction hs with
    | nil => intro e hf acc; exact ⟨acc, rfl⟩
    | cons h rest ih =>
      intro e hf acc
      rw [Encoder.encodeList]
      obtain ⟨bs, hbs⟩ := hfield e h hf true
      rcases hE : e.EncodeIndexed h hf with ⟨e2, err | enc⟩
      · rw [Encoder.EncodeIndexed] at hE
        rw [hE] at hbs
        simp at hbs
      · simp only
        exact ih e2 hf (acc ++ enc)
  exact ⟨hfield, fun e h hf => ⟨hfield e h hf true, hfield e h hf false⟩,
    fun e hs hf acc => hlist hs e hf acc,
    fun e hs => hlist hs e true []⟩

/-- C1 (codec round-trip) fails on the code: evaluation at the failing
input.**  The static name+value lookup key is built with the separator `':'`,
which collides with header syntax: the header `("", "method:GET")` has the
same joined key as the static entry 2 `(":method", "GET")`, so the encoder
emits the indexed representation `0x82` and the decoder returns a different
header list than was encoded, with no error on either side. -/
theorem codec_roundtrip_violation_eval :
    ((NewEncoder 256).Encode [⟨[], ascii "method:GET", false⟩]).2 = .ok [130] ∧
    ((NewDecoder 256).Decode [130]).2 = .ok [⟨ascii ":method", ascii "GET", false⟩] ∧
    (⟨ascii ":method", ascii "GET", false⟩ : Header) ≠ ⟨[], ascii "method:GET", false⟩ := by
  refine ⟨rfl, rfl, ?_⟩
  decide

/-- C4 (size-update cap) fails on the code: evaluation at the failing
input.**  A decoder constructed with protocol maximum 100 first applies a
size update to 0 and then rejects a size update back to 100 — although
100 is not greater than the construction-time value — because
`parseDynamicSizeUpdate` compares against the current (already lowered)
`dynamicTableSizeMax` field rather than the construction-time value. -/
theorem sizeUpdate_cap_violation_eval :
    ((NewDecoder 100).Decode [32, 63, 69]).2 = .error .resizeTooLarge ∧
    (NewDecoder 100).dynamicTableSizeMax = 100 ∧ ((100 : Int) ≤ 100) := by
  exact ⟨rfl, rfl, by decide⟩

/-- C5 (size-update ordering) fails on the code: counterexample.**  The
block `[0x82, 0x20]` contains a size-update representation *after* a header
field; the claim requires `Decode` to fail with a compression error, but the
decoder accepts the block, returns the decoded header, and applies the
update (the cap drops to 0). -/
theorem sizeUpdate_ordering_counterexample :
    ((NewDecoder 256).Decode [130, 32]).2 = .ok [⟨ascii ":method", ascii "GET", false⟩] ∧
    ((NewDecoder 256).Decode [130, 32]).1.dynamicTableSizeMax = 0 := by
  exact ⟨rfl, rfl⟩

/-- C6 (truncation errors) fails on the code: counterexample.**  On the
truncated integer `[0x1f]` (prefix 5, saturated prefix, no continuation
octet) `decodeInteger` executes the explicit source panic — a crash
(`panicOutOfData` models `panic("ran out of data while reading HPACK
integer")`), not a returned `Truncated` error value; and a raw string
literal whose declared length 5 exceeds the remaining 2 octets crashes with
a slice-out-of-range panic rather than returning an error value. -/
theorem truncation_counterexample :
    decodeInteger [31] 5 DefaultMaxIntegerValue DefaultMaxIntegerEncodedLength
      = .error .panicOutOfData ∧
    readPrefixedLengthString (NewDecoder 256) [5, 97, 98] 7 = .error .panicSliceOutOfRange := by
  exact ⟨rfl, rfl⟩

/-- C7 (invalid index errors) fails on the code: evaluation at the failing
input.**  The indexed representation with index 0 (`[0x80]`) makes
`getIndexedNameValue` evaluate `staticTable[-1]` — a Go index-out-of-range
panic (a crash, modelled by `panicIndexOutOfRange`), not an `InvalidIndex`
error value.  An index beyond the joint table (127 on an empty dynamic
table, `[0xff, 0x00]`) does return an error value, as the claim says. -/
theorem invalidIndex_violation_eval :
    ((NewDecoder 256).Decode [128]).2 = .error .panicIndexOutOfRange ∧
    ((NewDecoder 256).Decode [255, 0]).2 = .error .indexNotFound := by
  exact ⟨rfl, rfl⟩

/-- C8 (encoder table lookup) fails on the code: counterexample.**  With
the dynamic table holding `("x", "1")` (joint index 62), looking up
`("x", "2")` must, per the claim, return the smallest joint index whose
entry matches the name — 62 — as a name-only match; the code returns
"not found" `(-1, false)`, because the dynamic-table scan requires the value
to match too and never yields name-only matches. -/
theorem findHeaderInTable_counterexample :
    ((NewEncoder 256).addEntry (ascii "x") (ascii "1")).findHeaderInTable
      (ascii "x") (ascii "2") = (-1, false) ∧
    ((NewEncoder 256).addEntry (ascii "x") (ascii "1")).dynamicTable.map Header.name
      = [ascii "x"] := by
  have hx : (ascii "x").length = 1 := rfl
  have h1 : (ascii "1").length = 1 := rfl
  have hev : evictEntries [] 0 (32 + ((ascii "x").length : Int) + (ascii "1").length) 256
      = ([], 0, true) := by
    rw [evictEntries.eq_def, hx, h1, if_neg (by norm_num)]
  have hadd : (NewEncoder 256).addEntry (ascii "x") (ascii "1")
      = { dynamicTable := [⟨ascii "x", ascii "1", false⟩], dynamicTableSizeMax := 256,
          dynamicTableSizeCurrent := 0 + (32 + ((ascii "x").length : Int) + (ascii "1").length),
          pendingDynamicTableSizeUpdate := false } := by
    rw [Encoder.addEntry, addNewDynamicEntry]
    rw [show (NewEncoder 256).dynamicTable = [] from rfl,
      show (NewEncoder 256).dynamicTableSizeCurrent = 0 from rfl,
      show (NewEncoder 256).dynamicTableSizeMax = 256 from rfl, hev]
    rfl
  rw [hadd]
  exact ⟨by decide, by decide⟩


/-- Resizing to cap 0 empties any size-consistent table. -/
lemma evictEntries_to_zero (tbl : List Header) (cur : Int) :
    cur = sumOctets tbl →
      (evictEntries tbl cur 0 0).1 = [] ∧ (evictEntries tbl cur 0 0).2.1 = 0 := by
  have h := evictEntries_spec tbl cur 0 0
  intro hsum
  have hs := h hsum
  rcases hb : (evictEntries tbl cur 0 0).2.2 with _ | _
  · exact hs.2.2 hb
  · have h1 := hs.2.1 hb
    have h2 := hs.1
    have h3 : sumOctets (evictEntries tbl cur 0 0).1 = 0 := by
      have := sumOctets_nonneg (evictEntries tbl cur 0 0).1
      omega
    exact ⟨sumOctets_eq_zero h3, by omega⟩

/-- C5 amended: a size update after a header field is accepted and
applied.**  On any size-consistent decoder with cap 256, the block
`[0x82, 0x20, 0x82]` — an indexed field, then a size update to 0, then
another indexed field — decodes without error to two headers, with the
mid-block update applied: the cap becomes 0 and the dynamic table is
evicted to empty. -/
theorem sizeUpdate_midblock_applied (tbl : List Header) (cur : Int)
    (hsum : cur = sumOctets tbl) :
    Decoder.Decode
        ⟨tbl, 256, cur, DefaultMaxIntegerValue, DefaultMaxIntegerEncodedLength,
          DefaultMaxStringLiteralLength⟩ [130, 32, 130]
      = (⟨[], 0, 0, DefaultMaxIntegerValue, DefaultMaxIntegerEncodedLength,
            DefaultMaxStringLiteralLength⟩,
          .ok [⟨ascii ":method", ascii "GET", false⟩,
               ⟨ascii ":method", ascii "GET", false⟩]) := by
  have hev := evictEntries_to_zero tbl cur hsum
  have hset : Decoder.SetDynamicTableMaxSize
      ⟨tbl, 256, cur, DefaultMaxIntegerValue, DefaultMaxIntegerEncodedLength,
        DefaultMaxStringLiteralLength⟩ ((0 : Nat) : Int)
      = ⟨[], 0, 0, DefaultMaxIntegerValue, DefaultMaxIntegerEncodedLength,
          DefaultMaxStringLiteralLength⟩ := by
    rw [Decoder.SetDynamicTableMaxSize]
    rw [show ((0 : Nat) : Int) = 0 from rfl]
    rw [hev.1, hev.2]
  calc Decoder.Decode
        ⟨tbl, 256, cur, DefaultMaxIntegerValue, DefaultMaxIntegerEncodedLength,
          DefaultMaxStringLiteralLength⟩ [130, 32, 130]
      = decodeLoop 2 (Decoder.SetDynamicTableMaxSize
          ⟨tbl, 256, cur, DefaultMaxIntegerValue, DefaultMaxIntegerEncodedLength,
            DefaultMaxStringLiteralLength⟩ ((0 : Nat) : Int)) [130]
          [⟨ascii ":method", ascii "GET", false⟩] := rfl
    _ = decodeLoop 2
          ⟨[], 0, 0, DefaultMaxIntegerValue, DefaultMaxIntegerEncodedLength,
            DefaultMaxStringLiteralLength⟩ [130]
          [⟨ascii ":method", ascii "GET", false⟩] := by rw [hset]
    _ = (⟨[], 0, 0, DefaultMaxIntegerValue, DefaultMaxIntegerEncodedLength,
            DefaultMaxStringLiteralLength⟩,
          .ok [⟨ascii ":method", ascii "GET", false⟩,
               ⟨ascii ":method", ascii "GET", false⟩]) := rfl

/-- Witness for the amended C5 at a concrete one-entry table. -/
theorem sizeUpdate_midblock_applied_witness :
    ((34 : Int) = sumOctets [⟨ascii "a", ascii "b", false⟩]) ∧
    Decoder.Decode
        ⟨[⟨ascii "a", ascii "b", false⟩], 256, 34, DefaultMaxIntegerValue,
          DefaultMaxIntegerEncodedLength, DefaultMaxStringLiteralLength⟩ [130, 32, 130]
      = (⟨[], 0, 0, DefaultMaxIntegerValue, DefaultMaxIntegerEncodedLength,
            DefaultMaxStringLiteralLength⟩,
          .ok [⟨ascii ":method", ascii "GET", false⟩,
               ⟨ascii ":method", ascii "GET", false⟩]) :=
  ⟨by decide, sizeUpdate_midblock_applied [⟨ascii "a", ascii "b", false⟩] 34 (by decide)⟩


/-- A continuation sequence in which every octet has the high bit set runs
the decoder off the end of the buffer — the source panic — provided the
encoded-length limit cannot fire first. -/
lemma decodeIntLoop_truncated (intMax lenMax : Int) :
    ∀ (rest : Bytes) (n m idx : Nat), (∀ c ∈ rest, c &&& (1 <<< 7) ≠ 0) →
      ((idx : Int) + rest.length < lenMax) →
      decodeIntLoop intMax lenMax rest n m idx = .error .panicOutOfData := by
  intro rest
  induction rest with
  | nil => intro n m idx _ _; rfl
  | cons c r ih =>
    intro n m idx hbits hlen
    rw [decodeIntLoop]
    rw [if_neg (hbits c (by simp))]
    rw [if_neg (by
      simp only [List.length_cons] at hlen
      push_cast at hlen ⊢
      omega)]
    exact ih _ _ _ (fun x hx => hbits x (by simp [hx]))
      (by simp only [List.length_cons] at hlen; push_cast at hlen ⊢; omega)

/-- C6 amended: how the decoder actually reacts to truncated input.**
(1) `decodeInteger` on a saturated prefix followed only by set-high-bit
octets (with the buffer short enough that the encoded-length limit does not
fire) runs off the buffer and executes the source's explicit `panic` — a
crash, not an error value.  (2) A raw (non-Huffman) string literal whose
declared length exceeds the remaining octets crashes on the out-of-range
slice `rest[length:]`.  (3) Only a Huffman string literal whose declared
length exceeds the remaining octets returns an error value (the
`fmt.Errorf` of the source, not a `Truncated` discriminant). -/
theorem truncation_behaviour :
    (∀ (N b : Nat) (rest : Bytes) (intMax lenMax : Int),
      ((1 <<< N) - 1) &&& b = (1 <<< N) - 1 →
      (∀ c ∈ rest, c &&& (1 <<< 7) ≠ 0) →
      ((rest.length : Int) + 1 < lenMax) →
      decodeInteger (b :: rest) N intMax lenMax = .error .panicOutOfData) ∧
    (∀ (d : Decoder) (b : Nat) (rest : Bytes),
      b < 128 → b ≠ 127 → ((b : Int) ≤ d.stringLiteralLengthMax) → rest.length < b →
      readPrefixedLengthString d (b :: rest) 7 = .error .panicSliceOutOfRange) ∧
    (∀ (d : Decoder) (b : Nat) (rest : Bytes),
      128 ≤ b → b < 255 → (((b - 128 : Nat) : Int) ≤ d.stringLiteralLengthMax) →
      rest.length < b - 128 →
      readPrefixedLengthString d (b :: rest) 7 = .error .ranOutHuffmanData) := by
  refine ⟨?_, ?_, ?_⟩
  · intro N b rest intMax lenMax hmask hbits hlen
    rw [decodeInteger]
    try simp only
    rw [if_neg (by simpa using hmask)]
    rw [decodeIntLoop_truncated intMax lenMax rest _ 0 1 hbits
      (by push_cast at hlen ⊢; omega)]
  · intro d b rest hb hb7 hmax hshort
    have hand : 127 &&& b = b := by
      rw [Nat.and_comm]
      exact and_127_of_lt hb
    have hpre : (b >>> 7) <<< 7 = 0 := by
      have h0 : b >>> 7 = 0 := by
        rw [Nat.shiftRight_eq_div_pow]
        exact Nat.div_eq_of_lt (by norm_num; omega)
      simp [h0]
    have hdec : d.DecodeInteger (b :: rest) 7 = .ok (rest, 0, b) := by
      rw [Decoder.DecodeInteger, decodeInteger]
      try simp only
      rw [show (1 : Nat) <<< 7 - 1 = 127 from rfl, hand, hpre, if_pos hb7]
    rw [readPrefixedLengthString, hdec]
    try simp only
    rw [if_neg (by omega)]
    rw [if_neg (by decide)]
    rw [if_neg (by omega)]
  · intro d b rest hb hb255 hmax hshort
    have hand : 127 &&& b = b - 128 := by
      rw [Nat.and_comm]
      have h1 : b &&& 2 ^ 7 - 1 = b % 2 ^ 7 := Nat.and_pow_two_sub_one_eq_mod b 7
      have h2 : b % 2 ^ 7 = b - 128 := by
        have h7 : (2 : Nat) ^ 7 = 128 := by norm_num
        omega
      rw [h2] at h1
      exact h1
    have hpre : (b >>> 7) <<< 7 = 128 := by
      have h0 : b >>> 7 = 1 := by
        rw [Nat.shiftRight_eq_div_pow]
        have h7 : (2 : Nat) ^ 7 = 128 := by norm_num
        omega
      rw [h0]
      rfl
    have hdec : d.DecodeInteger (b :: rest) 7 = .ok (rest, 128, b - 128) := by
      rw [Decoder.DecodeInteger, decodeInteger]
      try simp only
      rw [show (1 : Nat) <<< 7 - 1 = 127 from rfl, hand, hpre, if_pos (by omega : b - 128 ≠ 127)]
    rw [readPrefixedLengthString, hdec]
    try simp only
    rw [if_neg (by omega)]
    rw [if_pos (by decide)]
    rw [if_pos hshort]

/-- Witness for the amended C6 at buffers `[0x1f]` (truncated integer),
`[0x05, 0x61, 0x62]` (raw literal of declared length 5 with 2 octets left)
and `[0x85, 0x61, 0x62]` (Huffman literal of declared length 5 with 2 octets
left). -/
theorem truncation_behaviour_witness :
    decodeInteger [31] 5 DefaultMaxIntegerValue DefaultMaxIntegerEncodedLength
      = .error .panicOutOfData ∧
    readPrefixedLengthString (NewDecoder 256) [5, 97, 98] 7 = .error .panicSliceOutOfRange ∧
    readPrefixedLengthString (NewDecoder 256) [133, 97, 98] 7 = .error .ranOutHuffmanData :=
  ⟨truncation_behaviour.1 5 31 [] DefaultMaxIntegerValue DefaultMaxIntegerEncodedLength
      (by decide) (by simp) (by decide),
    truncation_behaviour.2.1 (NewDecoder 256) 5 [97, 98]
      (by decide) (by decide) (by decide) (by decide),
    truncation_behaviour.2.2 (NewDecoder 256) 133 [97, 98]
      (by decide) (by decide) (by decide) (by decide)⟩

/-! ## C8: the encoder's table lookup, as the code actually performs it -/

/-- Helper: `findIdx?` at an arbitrary start index returns `start + i` when
`i` is the least index satisfying the predicate. -/
theorem findIdxQ_go_some {α : Type} (p : α → Bool) :
    ∀ (l : List α) (s i : Nat) (hi : i < l.length),
      p (l.get ⟨i, hi⟩) = true →
      (∀ j (hj : j < l.length), j < i → p (l.get ⟨j, hj⟩) = false) →
      List.findIdx? p l s = some (s + i)
  | [], _, i, hi, _, _ => absurd hi (by simp)
  | x :: xs, s, 0, _, h1, _ => by
      have hx : p x = true := h1
      rw [List.findIdx?_cons, if_pos hx, Nat.add_zero]
  | x :: xs, s, i + 1, hi, h1, h2 => by
      have hx : p x = false := h2 0 (by simp) (Nat.succ_pos i)
      rw [List.findIdx?_cons, if_neg (by simp [hx]),
        findIdxQ_go_some p xs (s + 1) i (by simpa using hi) h1
          (fun j hj hji => h2 (j + 1) (by simpa using hj) (by omega))]
      congr 1
      omega

/-- Helper: `findIdx?` at an arbitrary start index returns `none` when no
element satisfies the predicate. -/
theorem findIdxQ_go_none {α : Type} (p : α → Bool) :
    ∀ (l : List α) (s : Nat),
      (∀ j (hj : j < l.length), p (l.get ⟨j, hj⟩) = false) →
      List.findIdx? p l s = none
  | [], _, _ => List.findIdx?_nil
  | x :: xs, s, h => by
      have hx : p x = false := h 0 (by simp)
      rw [List.findIdx?_cons, if_neg (by simp [hx]),
        findIdxQ_go_none p xs (s + 1) (fun j hj => h (j + 1) (by simpa using hj))]

/-- Helper: least-index characterisation of `findIdx?`. -/
theorem findIdxQ_some {α : Type} (p : α → Bool) (l : List α) (i : Nat) (hi : i < l.length)
    (h1 : p (l.get ⟨i, hi⟩) = true)
    (h2 : ∀ j (hj : j < l.length), j < i → p (l.get ⟨j, hj⟩) = false) :
    l.findIdx? p = some i := by
  have h := findIdxQ_go_some p l 0 i hi h1 h2
  simpa using h

/-- Helper: `findIdx?` misses when every element fails the predicate. -/
theorem findIdxQ_none {α : Type} (p : α → Bool) (l : List α)
    (h : ∀ j (hj : j < l.length), p (l.get ⟨j, hj⟩) = false) :
    l.findIdx? p = none :=
  findIdxQ_go_none p l 0 h

/-- C8 amended: what `findHeaderInTable` actually returns.  (1) When the
value is non-empty and `i` is the least 0-based static index whose entry's
joined key `name ++ ":" ++ value` equals the query's joined key (so `':'`
collisions count as matches), the result is the full match `(i+1, true)` —
a static entry with empty value is never found this way.  (2) When the
static joined-key map misses (or the value is empty) and `x` is the least
0-based dynamic index whose entry matches name and value exactly, the
result is `(62+x, true)`.  (3) When both full-match lookups miss and `i` is
the least static index whose entry's name matches, the result is the
name-only match `(i+1, false)` — dynamic entries are never consulted for
name-only matches.  (4) When additionally no static name matches, the
result is `(-1, false)` even if a dynamic entry's name matches. -/
theorem findHeaderInTable_amended :
    (∀ (e : Encoder) (name value : Bytes) (i : Nat) (hi : i < staticTable.length),
      value ≠ [] →
      (staticTable.get ⟨i, hi⟩).1 ++ [58] ++ (staticTable.get ⟨i, hi⟩).2
        = name ++ [58] ++ value →
      (∀ j (hj : j < staticTable.length), j < i →
        (staticTable.get ⟨j, hj⟩).1 ++ [58] ++ (staticTable.get ⟨j, hj⟩).2
          ≠ name ++ [58] ++ value) →
      e.findHeaderInTable name value = ((i : Int) + 1, true)) ∧
    (∀ (e : Encoder) (name value : Bytes) (x : Nat) (hx : x < e.dynamicTable.length),
      (value = [] ∨ ∀ j (hj : j < staticTable.length),
        (staticTable.get ⟨j, hj⟩).1 ++ [58] ++ (staticTable.get ⟨j, hj⟩).2
          ≠ name ++ [58] ++ value) →
      (e.dynamicTable.get ⟨x, hx⟩).name = name →
      (e.dynamicTable.get ⟨x, hx⟩).value = value →
      (∀ y (hy : y < e.dynamicTable.length), y < x →
        ¬((e.dynamicTable.get ⟨y, hy⟩).name = name ∧
          (e.dynamicTable.get ⟨y, hy⟩).value = value)) →
      e.findHeaderInTable name value = ((staticTable.length : Int) + x + 1, true)) ∧
    (∀ (e : Encoder) (name value : Bytes) (i : Nat) (hi : i < staticTable.length),
      (value = [] ∨ ∀ j (hj : j < staticTable.length),
        (staticTable.get ⟨j, hj⟩).1 ++ [58] ++ (staticTable.get ⟨j, hj⟩).2
          ≠ name ++ [58] ++ value) →
      (∀ x (hx : x < e.dynamicTable.length),
        ¬((e.dynamicTable.get ⟨x, hx⟩).name = name ∧
          (e.dynamicTable.get ⟨x, hx⟩).value = value)) →
      (staticTable.get ⟨i, hi⟩).1 = name →
      (∀ j (hj : j < staticTable.length), j < i →
        (staticTable.get ⟨j, hj⟩).1 ≠ name) →
      e.findHeaderInTable name value = ((i : Int) + 1, false)) ∧
    (∀ (e : Encoder) (name value : Bytes),
      (value = [] ∨ ∀ j (hj : j < staticTable.length),
        (staticTable.get ⟨j, hj⟩).1 ++ [58] ++ (staticTable.get ⟨j, hj⟩).2
          ≠ name ++ [58] ++ value) →
      (∀ x (hx : x < e.dynamicTable.length),
        ¬((e.dynamicTable.get ⟨x, hx⟩).name = name ∧
          (e.dynamicTable.get ⟨x, hx⟩).value = value)) →
      (∀ j (hj : j < staticTable.length), (staticTable.get ⟨j, hj⟩).1 ≠ name) →
      e.findHeaderInTable name value = (-1, false)) := by
  have hwnone : ∀ (name value : Bytes),
      (value = [] ∨ ∀ j (hj : j < staticTable.length),
        (staticTable.get ⟨j, hj⟩).1 ++ [58] ++ (staticTable.get ⟨j, hj⟩).2
          ≠ name ++ [58] ++ value) →
      (if value ≠ [] then staticTableEncodingWithValues (name ++ [58] ++ value)
        else none) = none := by
    intro name value hstat
    by_cases hv : value = []
    · rw [if_neg (by simp [hv])]
    · rw [if_pos hv]
      have h := hstat.resolve_left hv
      have hnone : staticTable.findIdx?
          (fun t => t.1 ++ [58] ++ t.2 = name ++ [58] ++ value) = none :=
        findIdxQ_none _ _ (fun j hj => decide_eq_false (h j hj))
      rw [staticTableEncodingWithValues, hnone]
      rfl
  refine ⟨?_, ?_, ?_, ?_⟩
  · intro e name value i hi hv hkey hmin
    have hfind : staticTable.findIdx?
        (fun t => t.1 ++ [58] ++ t.2 = name ++ [58] ++ value) = some i :=
      findIdxQ_some _ _ i hi (decide_eq_true hkey)
        (fun j hj hji => decide_eq_false (hmin j hj hji))
    have hw : staticTableEncodingWithValues (name ++ [58] ++ value) = some (i + 1) := by
      rw [staticTableEncodingWithValues, hfind]
      rfl
    rw [Encoder.findHeaderInTable, if_pos hv, hw]
    show ((((i + 1 : Nat)) : Int), true) = ((i : Int) + 1, true)
    push_cast
    ring_nf
  · intro e name value x hx hstat hn hvv hmin
    have hd : e.dynamicTable.findIdx? (fun h => h.name = name ∧ h.value = value)
        = some x :=
      findIdxQ_some _ _ x hx (decide_eq_true ⟨hn, hvv⟩)
        (fun y hy hyx => decide_eq_false (hmin y hy hyx))
    rw [Encoder.findHeaderInTable, hwnone name value hstat, hd]
  · intro e name value i hi hstat hdyn hname hmin
    have hd : e.dynamicTable.findIdx? (fun h => h.name = name ∧ h.value = value)
        = none :=
      findIdxQ_none _ _ (fun y hy => decide_eq_false (hdyn y hy))
    have hsf : staticTable.findIdx? (fun t => t.1 = name) = some i :=
      findIdxQ_some _ _ i hi (decide_eq_true hname)
        (fun j hj hji => decide_eq_false (hmin j hj hji))
    have hs : staticTableEncoding name = some (i + 1) := by
      rw [staticTableEncoding, hsf]
      rfl
    rw [Encoder.findHeaderInTable, hwnone name value hstat, hd, hs]
    show ((((i + 1 : Nat)) : Int), false) = ((i : Int) + 1, false)
    push_cast
    ring_nf
  · intro e name value hstat hdyn hnm
    have hd : e.dynamicTable.findIdx? (fun h => h.name = name ∧ h.value = value)
        = none :=
      findIdxQ_none _ _ (fun y hy => decide_eq_false (hdyn y hy))
    have hsf : staticTable.findIdx? (fun t => t.1 = name) = none :=
      findIdxQ_none _ _ (fun j hj => decide_eq_false (hnm j hj))
    have hs : staticTableEncoding name = none := by
      rw [staticTableEncoding, hsf]
      rfl
    rw [Encoder.findHeaderInTable, hwnone name value hstat, hd, hs]

/-- Witness for the amended C8: full static match on `(":method", "GET")`
(index 2); full dynamic match on `("x", "1")` held only by the dynamic
table (index 62); static name-only match on `(":method", "PUT")` (index 2,
no full match); and a miss on `("x", "1")` when the dynamic table holds
`("x", "2")` — the dynamic name match is not reported. -/
theorem findHeaderInTable_amended_witness :
    (NewEncoder 256).findHeaderInTable (ascii ":method") (ascii "GET") = (2, true) ∧
    (Encoder.mk [⟨ascii "x", ascii "1", false⟩] 256 34 false).findHeaderInTable
      (ascii "x") (ascii "1") = (62, true) ∧
    (NewEncoder 256).findHeaderInTable (ascii ":method") (ascii "PUT") = (2, false) ∧
    (Encoder.mk [⟨ascii "x", ascii "2", false⟩] 256 34 false).findHeaderInTable
      (ascii "x") (ascii "1") = (-1, false) :=
  ⟨findHeaderInTable_amended.1 (NewEncoder 256) (ascii ":method") (ascii "GET") 1
      (by decide) (by decide) (by decide) (by decide),
    findHeaderInTable_amended.2.1 (Encoder.mk [⟨ascii "x", ascii "1", false⟩] 256 34 false)
      (ascii "x") (ascii "1") 0 (by decide) (Or.inr (by decide))
      (by decide) (by decide) (by decide),
    findHeaderInTable_amended.2.2.1 (NewEncoder 256) (ascii ":method") (ascii "PUT") 1
      (by decide) (Or.inr (by decide)) (by decide) (by decide) (by decide),
    findHeaderInTable_amended.2.2.2 (Encoder.mk [⟨ascii "x", ascii "2", false⟩] 256 34 false)
      (ascii "x") (ascii "1") (Or.inr (by decide)) (by decide) (by decide)⟩


/-! ## C9 groundwork: big-endian bit arithmetic -/

/-- Helper: `foldl` form of `natOfBits` from an arbitrary accumulator. -/
theorem natOfBits_go : ∀ (bs : List Bool) (n : Nat),
    bs.foldl (fun m b => 2 * m + (if b then 1 else 0)) n
      = n * 2 ^ bs.length + natOfBits bs := by
  intro bs
  induction bs with
  | nil => intro n; simp [natOfBits]
  | cons b t ih =>
    intro n
    have h1 : natOfBits (b :: t)
        = (2 * 0 + (if b then 1 else 0)) * 2 ^ t.length + natOfBits t := by
      rw [natOfBits, List.foldl_cons, ih]
    simp only [List.foldl_cons]
    rw [ih, h1, List.length_cons]
    cases b <;> simp <;> ring

/-- Helper: `natOfBits` of a cons. -/
theorem natOfBits_cons (b : Bool) (t : List Bool) :
    natOfBits (b :: t) = (if b then 1 else 0) * 2 ^ t.length + natOfBits t := by
  rw [natOfBits, List.foldl_cons, natOfBits_go]
  simp

/-- Helper: `natOfBits` of an append. -/
theorem natOfBits_append (xs ys : List Bool) :
    natOfBits (xs ++ ys) = natOfBits xs * 2 ^ ys.length + natOfBits ys := by
  rw [natOfBits, List.foldl_append, natOfBits_go]
  rfl

/-- Helper: `natOfBits` is bounded by the stream length. -/
theorem natOfBits_lt (bs : List Bool) : natOfBits bs < 2 ^ bs.length := by
  induction bs with
  | nil => simp [natOfBits]
  | cons b t ih =>
    rw [natOfBits_cons, List.length_cons, pow_succ]
    cases b <;> simp <;> omega

/-- Helper: an all-ones stream reads as `2^k - 1`. -/
theorem natOfBits_replicate_true (k : Nat) :
    natOfBits (List.replicate k true) = 2 ^ k - 1 := by
  induction k with
  | zero => simp [natOfBits]
  | succ k ih =>
    rw [List.replicate_succ, natOfBits_cons, List.length_replicate, ih, pow_succ]
    have := Nat.two_pow_pos k
    simp
    omega

/-- Helper: an all-zeros stream reads as `0`. -/
theorem natOfBits_replicate_false (k : Nat) :
    natOfBits (List.replicate k false) = 0 := by
  induction k with
  | zero => simp [natOfBits]
  | succ k ih => rw [List.replicate_succ, natOfBits_cons, ih]; simp

/-- Helper: OR-ing disjoint bit fields is addition. -/
theorem shiftLeft_lor_eq_add (a k m : Nat) (hm : m < 2 ^ k) :
    (a <<< k) ||| m = a * 2 ^ k + m := by
  apply Nat.eq_of_testBit_eq
  intro i
  rw [Nat.testBit_lor, Nat.testBit_shiftLeft]
  by_cases hik : i < k
  · have hmod : (a * 2 ^ k + m) % 2 ^ k = m := by
      rw [Nat.mul_comm, Nat.mul_add_mod]
      exact Nat.mod_eq_of_lt hm
    have h1 := Nat.testBit_mod_two_pow (a * 2 ^ k + m) k i
    rw [hmod, decide_eq_true hik, Bool.true_and] at h1
    rw [h1, decide_eq_false (by omega : ¬ i ≥ k)]
    simp
  · have hm0 : m.testBit i = false :=
      Nat.testBit_lt_two_pow
        (lt_of_lt_of_le hm (Nat.pow_le_pow_right (by norm_num) (by omega)))
    have hdiv : (a * 2 ^ k + m) >>> k = a := by
      rw [Nat.shiftRight_eq_div_pow, Nat.add_comm,
        Nat.add_mul_div_right _ _ (Nat.two_pow_pos k), Nat.div_eq_of_lt hm,
        Nat.zero_add]
    have h2 : (a * 2 ^ k + m).testBit i = a.testBit (i - k) := by
      conv_rhs => rw [← hdiv, Nat.testBit_shiftRight]
      congr 1
      omega
    rw [h2, hm0, decide_eq_true (by omega : i ≥ k), Bool.true_and, Bool.or_false]

/-- Helper: a peek window has exactly `k` bits. -/
theorem padTo_length : ∀ (k : Nat) (r : List Bool), (padTo k r).length = k
  | 0, _ => rfl
  | k + 1, [] => by simp [padTo, padTo_length k []]
  | k + 1, _ :: t => by simp [padTo, padTo_length k t]

/-- Helper: a window over an empty stream is all zeros. -/
theorem padTo_nil : ∀ (k : Nat), padTo k [] = List.replicate k false
  | 0 => rfl
  | k + 1 => by rw [padTo, padTo_nil k, List.replicate_succ]

/-- Helper: a window over an empty stream reads as zero. -/
theorem natOfBits_padTo_nil (k : Nat) : natOfBits (padTo k []) = 0 := by
  rw [padTo_nil, natOfBits_replicate_false]

/-- Helper: a window as long as a leading chunk is that chunk. -/
theorem padTo_append_left : ∀ (l₁ l₂ : List Bool), padTo l₁.length (l₁ ++ l₂) = l₁
  | [], _ => rfl
  | b :: t, l₂ => by simp [padTo, padTo_append_left t l₂]

/-- Helper: a shorter window is a prefix of a longer one. -/
theorem padTo_take : ∀ (L K : Nat) (r : List Bool), L ≤ K →
    (padTo K r).take L = padTo L r
  | 0, _, _, _ => by simp [padTo]
  | L + 1, 0, _, h => absurd h (by omega)
  | L + 1, K + 1, [], h => by
    simp [padTo, padTo_take L K [] (by omega)]
  | L + 1, K + 1, b :: t, h => by
    simp [padTo, padTo_take L K t (by omega)]

/-- Helper: shifting a `K`-bit window right keeps its top `L` bits. -/
theorem padTo_shift (L K : Nat) (r : List Bool) (h : L ≤ K) :
    natOfBits (padTo K r) >>> (K - L) = natOfBits (padTo L r) := by
  have hsplit : padTo K r = padTo L r ++ (padTo K r).drop L := by
    conv_lhs => rw [← List.take_append_drop L (padTo K r)]
    rw [padTo_take L K r h]
  have hlen : ((padTo K r).drop L).length = K - L := by
    rw [List.length_drop, padTo_length]
  have hd : natOfBits ((padTo K r).drop L) < 2 ^ (K - L) := hlen ▸ natOfBits_lt _
  conv_lhs => rw [hsplit]
  rw [natOfBits_append, Nat.shiftRight_eq_div_pow, hlen, Nat.add_comm,
    Nat.add_mul_div_right _ _ (Nat.two_pow_pos _), Nat.div_eq_of_lt hd,
    Nat.zero_add]

/-- Helper: `toBits` produces the requested width. -/
theorem toBits_length (v : Nat) : ∀ (w : Nat), (toBits v w).length = w
  | 0 => rfl
  | w + 1 => by simp [toBits, toBits_length v w]

/-- Helper: `toBits` only looks at the low `w` bits. -/
theorem toBits_eq_of_testBit_eq (v v' : Nat) :
    ∀ (w : Nat), (∀ i, i < w → v.testBit i = v'.testBit i) →
      toBits v w = toBits v' w
  | 0, _ => rfl
  | w + 1, h => by
    simp only [toBits]
    rw [h w (by omega), toBits_eq_of_testBit_eq v v' w (fun i hi => h i (by omega))]

/-- Helper: reading back `toBits` gives the value modulo the width. -/
theorem natOfBits_toBits (v : Nat) : ∀ (w : Nat), natOfBits (toBits v w) = v % 2 ^ w
  | 0 => by simp [toBits, natOfBits, Nat.mod_one]
  | w + 1 => by
    rw [show toBits v (w + 1) = v.testBit w :: toBits v w from rfl, natOfBits_cons,
      toBits_length, natOfBits_toBits v w, pow_succ, Nat.mod_mul,
      Nat.testBit_to_div_mod]
    rcases Nat.mod_two_eq_zero_or_one (v / 2 ^ w) with h | h <;> rw [h] <;> simp <;> omega

/-- Helper: `toBits` is invariant under mod by the width. -/
theorem toBits_mod_self (v w : Nat) : toBits (v % 2 ^ w) w = toBits v w :=
  toBits_eq_of_testBit_eq _ _ w (fun i hi => by
    rw [Nat.testBit_mod_two_pow, decide_eq_true hi, Bool.true_and])

/-- Helper: `toBits` inverts `natOfBits` at the stream's own length. -/
theorem toBits_natOfBits : ∀ (q : List Bool), toBits (natOfBits q) q.length = q := by
  intro q
  induction q with
  | nil => rfl
  | cons b t ih =>
    show (natOfBits (b :: t)).testBit t.length
        :: toBits (natOfBits (b :: t)) t.length = b :: t
    have hv : natOfBits (b :: t)
        = (if b then 1 else 0) * 2 ^ t.length + natOfBits t := natOfBits_cons b t
    have h1 : (natOfBits (b :: t)).testBit t.length = b := by
      rw [hv, Nat.testBit_to_div_mod]
      have hq : ((if b then 1 else 0) * 2 ^ t.length + natOfBits t) / 2 ^ t.length
          = (if b then 1 else 0) := by
        rw [Nat.add_comm, Nat.add_mul_div_right _ _ (Nat.two_pow_pos _),
          Nat.div_eq_of_lt (natOfBits_lt t), Nat.zero_add]
      rw [hq]
      cases b <;> simp
    have h2 : toBits (natOfBits (b :: t)) t.length = t := by
      rw [← toBits_mod_self, hv, Nat.mul_comm, Nat.mul_add_mod,
        Nat.mod_eq_of_lt (natOfBits_lt t), ih]
    rw [h1, h2]

/-- Helper: `bitsOfByte` is `toBits` at width 8. -/
theorem bitsOfByte_eq_toBits (b : Nat) : bitsOfByte b = toBits b 8 := rfl

/-- Helper: `bitsOfByte` inverts `natOfBits` on 8-bit streams. -/
theorem bitsOfByte_natOfBits (q : List Bool) (h : q.length = 8) :
    bitsOfByte (natOfBits q) = q := by
  rw [bitsOfByte_eq_toBits, ← h]
  exact toBits_natOfBits q


/-! ## C9 groundwork: the Huffman code table is well formed and prefix-free -/

/-- Helper: the table has 257 entries. -/
theorem huffmanCodes_length : huffmanCodes.length = 257 := by rfl

/-- Helper: every table entry is well formed (checked by evaluation). -/
theorem huffmanCodes_entryOK : huffmanCodes.all codeEntryOK = true := by decide

/-- Helper: code values fit their bit lengths, which lie in `[5, 30]`. -/
theorem entryOK_spec (s : Nat) (hs : s < 257) :
    hCode s < 2 ^ hBits s ∧ 5 ≤ hBits s ∧ hBits s ≤ 30 := by
  have hlen : s < huffmanCodes.length := by rw [huffmanCodes_length]; exact hs
  have hget : huffmanCodes.getD s (0, 0) = huffmanCodes[s] :=
    List.getD_eq_getElem _ _ hlen
  have h := List.all_eq_true.mp huffmanCodes_entryOK _ (List.getElem_mem hlen)
  rw [codeEntryOK] at h
  simp only [Bool.and_eq_true, decide_eq_true_eq] at h
  rw [hCode, hBits, hget]
  exact ⟨h.1.1, h.1.2, h.2⟩

/-- Helper: `pairwiseOK` really checks every ordered index pair. -/
theorem pairwiseOK_spec : ∀ (l : List (Nat × Nat)), pairwiseOK l = true →
    ∀ i j (hi : i < l.length) (hj : j < l.length), i < j →
      pairOK (l.get ⟨i, hi⟩) (l.get ⟨j, hj⟩) = true
  | [], _, i, _, hi, _, _ => absurd hi (by simp)
  | e :: t, h, 0, j + 1, hi, hj, hij => by
    simp only [pairwiseOK, Bool.and_eq_true] at h
    exact List.all_eq_true.mp h.1 (t.get ⟨j, by simpa using hj⟩)
      (List.get_mem t j (by simpa using hj))
  | e :: t, h, i + 1, j + 1, hi, hj, hij => by
    simp only [pairwiseOK, Bool.and_eq_true] at h
    exact pairwiseOK_spec t h.2 i j (by simpa using hi) (by simpa using hj) (by omega)
  | e :: t, h, i + 1, 0, hi, hj, hij => absurd hij (by omega)

/-- Helper: the table is pairwise prefix-free (checked by evaluation). -/
theorem huffmanCodes_pairwiseOK : pairwiseOK huffmanCodes = true := by decide

/-- Helper: the `s`-indexed entry as a pair. -/
theorem huffmanCodes_get_eq (s : Nat) (hs : s < huffmanCodes.length) :
    huffmanCodes.get ⟨s, hs⟩ = (hCode s, hBits s) := by
  rw [hCode, hBits, List.getD_eq_getElem _ _ hs, List.get_eq_getElem, Prod.mk.eta]

/-- Helper: no codeword is a prefix of another symbol's codeword. -/
theorem noPrefix (s t : Nat) (hs : s < 257) (ht : t < 257) (hst : s ≠ t)
    (hb : hBits s ≤ hBits t) : hCode t >>> (hBits t - hBits s) ≠ hCode s := by
  have hs' : s < huffmanCodes.length := by rw [huffmanCodes_length]; exact hs
  have ht' : t < huffmanCodes.length := by rw [huffmanCodes_length]; exact ht
  rcases Nat.lt_or_ge s t with h | h
  · have hp := pairwiseOK_spec huffmanCodes huffmanCodes_pairwiseOK s t hs' ht' h
    rw [huffmanCodes_get_eq s hs', huffmanCodes_get_eq t ht'] at hp
    simp only [pairOK, Bool.and_eq_true, Bool.not_eq_true', Bool.and_eq_false_iff,
      decide_eq_false_iff_not, decide_eq_true_eq] at hp
    intro heq
    rcases hp.1 with hcon | hcon
    · exact hcon hb
    · exact hcon heq
  · have hlt : t < s := by omega
    have hp := pairwiseOK_spec huffmanCodes huffmanCodes_pairwiseOK t s ht' hs' hlt
    rw [huffmanCodes_get_eq t ht', huffmanCodes_get_eq s hs'] at hp
    simp only [pairOK, Bool.and_eq_true, Bool.not_eq_true', Bool.and_eq_false_iff,
      decide_eq_false_iff_not, decide_eq_true_eq] at hp
    intro heq
    rcases hp.2 with hcon | hcon
    · exact hcon hb
    · exact hcon heq

/-- Helper: a codeword's bit length is the table's bit length. -/
theorem codeword_length (s : Nat) : (codeword s).length = hBits s := by
  rw [codeword, toBits_length]

/-- Helper: a codeword reads back as the table's code value. -/
theorem natOfBits_codeword (s : Nat) (hs : s < 257) :
    natOfBits (codeword s) = hCode s := by
  rw [codeword, natOfBits_toBits, Nat.mod_eq_of_lt (entryOK_spec s hs).1]

/-- Helper: least-match characterisation of `find?`. -/
theorem findQ_eq_some_of {α : Type} (p : α → Bool) :
    ∀ (l : List α) (i : Nat) (hi : i < l.length),
      p (l.get ⟨i, hi⟩) = true →
      (∀ j (hj : j < l.length), j < i → p (l.get ⟨j, hj⟩) = false) →
      l.find? p = some (l.get ⟨i, hi⟩)
  | [], i, hi, _, _ => absurd hi (by simp)
  | x :: xs, 0, _, h1, _ => by
    have hx : p x = true := h1
    rw [List.find?_cons_of_pos _ hx]
    rfl
  | x :: xs, i + 1, hi, h1, h2 => by
    have hx : p x = false := h2 0 (by simp) (by omega)
    rw [List.find?_cons_of_neg _ (by simp [hx])]
    exact findQ_eq_some_of p xs i (by simpa using hi) h1
      (fun j hj hji => h2 (j + 1) (by simpa using hj) (by omega))

/-- Helper: least-match characterisation of `find?` over `range`. -/
theorem find_range_eq_some (p : Nat → Bool) (n s : Nat) (hs : s < n)
    (hp : p s = true) (hmin : ∀ t, t < s → p t = false) :
    (List.range n).find? p = some s := by
  have hlen : s < (List.range n).length := by simpa using hs
  have hget : (List.range n).get ⟨s, hlen⟩ = s := by
    simp [List.get_eq_getElem, List.getElem_range]
  have h := findQ_eq_some_of p (List.range n) s hlen (by rw [hget]; exact hp)
    (fun j hj hji => by
      have hj' : (List.range n).get ⟨j, hj⟩ = j := by
        simp [List.get_eq_getElem, List.getElem_range]
      rw [hj']
      exact hmin j hji)
  rw [hget] at h
  exact h


/-! ## C9 groundwork: what `PeekBits(32)` returns -/

/-- Helper: full characterisation of `peekGo` on the states reachable from
`peekBits32` — with `c` bits already consumed, the window gains the next
`32 - c` stream bits (zero-padded) and the count reports where the stream
ran out (or 32). -/
theorem peekGo_spec : ∀ (r : List Bool) (c n y : Nat),
    (y = 0 → c % 8 = 0 ∧ c ≤ 40) →
    (0 < y → y ≤ 8 ∧ (c + y) % 8 = 0 ∧ c + y ≤ 40) →
    peekGo r (32 - (c : Int)) n y
      = (n ||| natOfBits (padTo (32 - c) r),
         if r = [] then 32 else if r.length ≤ 40 - c then c + r.length else 32)
  | r, c, n, 0, h0, _ => by
    obtain ⟨hc8, hc40⟩ := h0 rfl
    have hunf : peekGo r (32 - (c : Int)) n 0
        = if 0 ≤ 32 - (c : Int) then peekGo r (32 - (c : Int)) n 8 else (n, 32) := by
      rw [peekGo.eq_def]
      cases r <;> rfl
    rw [hunf]
    by_cases hc : c ≤ 32
    · rw [if_pos (by omega)]
      exact peekGo_spec r c n 8 (fun h => absurd h (by omega))
        (fun _ => ⟨by omega, by omega, by omega⟩)
    · rw [if_neg (by omega)]
      have hc40' : c = 40 := by omega
      subst hc40'
      cases r with
      | nil => simp [show (32 : Nat) - 40 = 0 from rfl, padTo, natOfBits]
      | cons b t =>
        simp [show (32 : Nat) - 40 = 0 from rfl, show (40 : Nat) - 40 = 0 from rfl,
          padTo, natOfBits]
  | [], c, n, y + 1, _, _ => by
    have hunf : peekGo ([] : List Bool) (32 - (c : Int)) n (y + 1) = (n, 32) := by
      rw [peekGo.eq_def]
    rw [hunf, natOfBits_padTo_nil, Nat.or_zero _, if_pos rfl]
  | b :: rest, c, n, y + 1, _, h1 => by
    obtain ⟨hy8, hmod, hle⟩ := h1 (by omega)
    have hc39 : c ≤ 39 := by omega
    have hunf : peekGo (b :: rest) (32 - (c : Int)) n (y + 1)
        = (if rest.isEmpty
            then ((if 1 ≤ 32 - (c : Int) then
                    n ||| ((if b then 1 else 0) <<< ((32 - (c : Int)) - 1).toNat) else n),
                  (32 - (32 - (c : Int)) + 1).toNat)
            else peekGo rest ((32 - (c : Int)) - 1)
              (if 1 ≤ 32 - (c : Int) then
                n ||| ((if b then 1 else 0) <<< ((32 - (c : Int)) - 1).toNat) else n) y) := by
      rw [peekGo.eq_def]
    rw [hunf]
    have hx1 : ((32 - (c : Int)) - 1) = 32 - ((c + 1 : Nat) : Int) := by push_cast; ring
    by_cases hc : c ≤ 31
    · have htn : ((32 - (c : Int)) - 1).toNat = 31 - c := by omega
      rw [if_pos (by omega : (1 : Int) ≤ 32 - (c : Int)), htn]
      have hbv : (if b then 1 else 0) <<< (31 - c) = natOfBits (padTo (32 - c) [b]) := by
        rw [show (32 : Nat) - c = (31 - c) + 1 from by omega]
        rw [show padTo ((31 - c) + 1) [b] = b :: padTo (31 - c) [] from rfl]
        rw [natOfBits_cons, padTo_length, natOfBits_padTo_nil, Nat.shiftLeft_eq]
        simp
      cases rest with
      | nil =>
        rw [if_pos (show ([] : List Bool).isEmpty = true from rfl)]
        have ht2 : ((32 : Int) - (32 - (c : Int)) + 1).toNat = c + 1 := by omega
        rw [ht2, hbv]
        rw [if_neg (by simp), if_pos (by simp; omega)]
        simp
      | cons b2 t2 =>
        rw [if_neg (by simp), hx1]
        rw [peekGo_spec (b2 :: t2) (c + 1) (n ||| ((if b then 1 else 0) <<< (31 - c))) y
          (fun hy => ⟨by omega, by omega⟩) (fun hy => ⟨by omega, by omega, by omega⟩)]
        have hfst : (n ||| ((if b then 1 else 0) <<< (31 - c))) |||
              natOfBits (padTo (32 - (c + 1)) (b2 :: t2))
            = n ||| natOfBits (padTo (32 - c) (b :: b2 :: t2)) := by
          rw [show (32 : Nat) - (c + 1) = 31 - c from by omega]
          rw [show (32 : Nat) - c = (31 - c) + 1 from by omega]
          rw [show padTo ((31 - c) + 1) (b :: b2 :: t2)
              = b :: padTo (31 - c) (b2 :: t2) from rfl]
          rw [natOfBits_cons, padTo_length]
          have hlt : natOfBits (padTo (31 - c) (b2 :: t2)) < 2 ^ (31 - c) := by
            have hq := natOfBits_lt (padTo (31 - c) (b2 :: t2))
            rwa [padTo_length] at hq
          rw [← shiftLeft_lor_eq_add _ _ _ hlt, Nat.lor_assoc]
        have hsnd : (if (b2 :: t2 : List Bool) = [] then 32
              else if (b2 :: t2).length ≤ 40 - (c + 1) then (c + 1) + (b2 :: t2).length
              else 32)
            = (if (b :: b2 :: t2 : List Bool) = [] then 32
              else if (b :: b2 :: t2).length ≤ 40 - c then c + (b :: b2 :: t2).length
              else 32) := by
          rw [if_neg (show ¬((b2 :: t2 : List Bool) = []) from by simp),
            if_neg (show ¬((b :: b2 :: t2 : List Bool) = []) from by simp)]
          simp only [List.length_cons]
          split_ifs <;> omega
        rw [hfst, hsnd]
    · rw [if_neg (by omega : ¬ (1 : Int) ≤ 32 - (c : Int))]
      have h0 : ∀ (l : List Bool), natOfBits (padTo (32 - c) l) = 0 := by
        intro l
        rw [show (32 : Nat) - c = 0 from by omega]
        rfl
      cases rest with
      | nil =>
        rw [if_pos (show ([] : List Bool).isEmpty = true from rfl)]
        have ht2 : ((32 : Int) - (32 - (c : Int)) + 1).toNat = c + 1 := by omega
        rw [ht2, h0, Nat.or_zero _]
        rw [if_neg (by simp), if_pos (by simp; omega)]
        simp
      | cons b2 t2 =>
        rw [if_neg (by simp), hx1]
        rw [peekGo_spec (b2 :: t2) (c + 1) n y
          (fun hy => ⟨by omega, by omega⟩) (fun hy => ⟨by omega, by omega, by omega⟩)]
        have h0' : natOfBits (padTo (32 - (c + 1)) (b2 :: t2)) = 0 := by
          rw [show (32 : Nat) - (c + 1) = 0 from by omega]
          rfl
        rw [h0', h0, Nat.or_zero _]
        have hsnd : (if (b2 :: t2 : List Bool) = [] then 32
              else if (b2 :: t2).length ≤ 40 - (c + 1) then (c + 1) + (b2 :: t2).length
              else 32)
            = (if (b :: b2 :: t2 : List Bool) = [] then 32
              else if (b :: b2 :: t2).length ≤ 40 - c then c + (b :: b2 :: t2).length
              else 32) := by
          rw [if_neg (show ¬((b2 :: t2 : List Bool) = []) from by simp),
            if_neg (show ¬((b :: b2 :: t2 : List Bool) = []) from by simp)]
          simp only [List.length_cons]
          split_ifs <;> omega
        rw [hsnd]
termination_by r c n y h0 h1 => 9 * r.length + (8 - y)
decreasing_by
  all_goals first
  | omega
  | (simp only [List.length_cons]; omega)

/-- Helper: `PeekBits(32)` returns the zero-padded 32-bit window and the
number of bits actually available (capped as the source computes it). -/
theorem peekBits32_spec (r : List Bool) :
    peekBits32 r = (natOfBits (padTo 32 r),
      if r = [] then 32 else if r.length ≤ 40 then r.length else 32) := by
  have h := peekGo_spec r 0 0 0 (fun _ => ⟨by omega, by omega⟩)
    (fun hy => absurd hy (by omega))
  rw [show (32 : Int) - ((0 : Nat) : Int) = 32 from by norm_num] at h
  rw [peekBits32, h]
  simp


/-! ## C9 groundwork: the decoder's lookup on a codeword-headed stream -/

/-- Helper: on a stream starting with symbol `s`'s codeword, the multi-level
lookup finds exactly `(s, hBits s)` — prefix-freeness makes the first match
unique. -/
theorem huffLookup_codeword (s : Nat) (hs : s < 257) (tail : List Bool) :
    huffLookup (natOfBits (padTo 32 (codeword s ++ tail))) = some (s, hBits s) := by
  have hkey : ∀ t, t < 257 →
      natOfBits (padTo 32 (codeword s ++ tail)) >>> (32 - hBits t)
        = natOfBits (padTo (hBits t) (codeword s ++ tail)) := by
    intro t ht
    exact padTo_shift (hBits t) 32 _ (by have := (entryOK_spec t ht).2.2; omega)
  have hcw : natOfBits (padTo (hBits s) (codeword s ++ tail)) = hCode s := by
    have h2 : padTo (hBits s) (codeword s ++ tail) = codeword s := by
      conv_lhs => rw [← codeword_length s]
      exact padTo_append_left _ _
    rw [h2, natOfBits_codeword s hs]
  have hfind : (List.range 257).find?
      (fun t => natOfBits (padTo 32 (codeword s ++ tail)) >>> (32 - hBits t) = hCode t)
      = some s := by
    apply find_range_eq_some
    · exact hs
    · exact decide_eq_true (by rw [hkey s hs, hcw])
    · intro t hts
      apply decide_eq_false
      intro heq
      have ht : t < 257 := by omega
      rw [hkey t ht] at heq
      rcases le_or_lt (hBits t) (hBits s) with hb | hb
      · have hsh := padTo_shift (hBits t) (hBits s) (codeword s ++ tail) hb
        rw [hcw] at hsh
        rw [← hsh] at heq
        exact noPrefix t s ht hs (by omega) hb heq
      · have hsh := padTo_shift (hBits s) (hBits t) (codeword s ++ tail) (by omega)
        rw [hcw, heq] at hsh
        exact noPrefix s t hs ht (by omega) (by omega) hsh
  rw [huffLookup, hfind]
  rfl

/-- Helper: the window of five padding ones matches the 8-bit code `0xf8`
(symbol 38) through its zero fill (checked by evaluation). -/
theorem huffLookup_pad5 :
    huffLookup (natOfBits (padTo 32 (List.replicate 5 true))) = some (38, 8) := by decide

/-- Helper: the window of six padding ones matches the 8-bit code `0xfc`
(symbol 88) through its zero fill (checked by evaluation). -/
theorem huffLookup_pad6 :
    huffLookup (natOfBits (padTo 32 (List.replicate 6 true))) = some (88, 8) := by decide

/-- Helper: the window of seven padding ones matches the 10-bit code
`0x3f8` (symbol 33) through its zero fill (checked by evaluation). -/
theorem huffLookup_pad7 :
    huffLookup (natOfBits (padTo 32 (List.replicate 7 true))) = some (33, 10) := by decide

/-- Helper: the decode loop sees 5 to 7 trailing padding ones as a partial
match (`bits > bitsRead`), emits nothing, and stops cleanly. -/
theorem huffDecLoop_pad (k fuel : Nat) (acc : List Nat) (h5 : 5 ≤ k) (h7 : k ≤ 7) :
    huffDecLoop (fuel + 2) (List.replicate k true) acc = .ok acc := by
  interval_cases k
  · simp only [huffDecLoop]
    rw [if_pos (show 5 ≤ (List.replicate 5 true).length from by decide)]
    have hp1 : (peekBits32 (List.replicate 5 true)).1
        = natOfBits (padTo 32 (List.replicate 5 true)) := by rw [peekBits32_spec]
    have hp2 : (peekBits32 (List.replicate 5 true)).2 = 5 := by
      rw [peekBits32_spec]
      decide
    rw [hp1, huffLookup_pad5]
    show huffDecLoop (fuel + 1) ((List.replicate 5 true).drop 8)
        (if 8 ≤ (peekBits32 (List.replicate 5 true)).2 then acc ++ [38 % 256] else acc)
      = Except.ok acc
    rw [hp2, if_neg (by norm_num),
      show (List.replicate 5 true).drop 8 = [] from by decide]
    simp only [huffDecLoop]
    rw [if_neg (by decide)]
  · simp only [huffDecLoop]
    rw [if_pos (show 5 ≤ (List.replicate 6 true).length from by decide)]
    have hp1 : (peekBits32 (List.replicate 6 true)).1
        = natOfBits (padTo 32 (List.replicate 6 true)) := by rw [peekBits32_spec]
    have hp2 : (peekBits32 (List.replicate 6 true)).2 = 6 := by
      rw [peekBits32_spec]
      decide
    rw [hp1, huffLookup_pad6]
    show huffDecLoop (fuel + 1) ((List.replicate 6 true).drop 8)
        (if 8 ≤ (peekBits32 (List.replicate 6 true)).2 then acc ++ [88 % 256] else acc)
      = Except.ok acc
    rw [hp2, if_neg (by norm_num),
      show (List.replicate 6 true).drop 8 = [] from by decide]
    simp only [huffDecLoop]
    rw [if_neg (by decide)]
  · simp only [huffDecLoop]
    rw [if_pos (show 5 ≤ (List.replicate 7 true).length from by decide)]
    have hp1 : (peekBits32 (List.replicate 7 true)).1
        = natOfBits (padTo 32 (List.replicate 7 true)) := by rw [peekBits32_spec]
    have hp2 : (peekBits32 (List.replicate 7 true)).2 = 7 := by
      rw [peekBits32_spec]
      decide
    rw [hp1, huffLookup_pad7]
    show huffDecLoop (fuel + 1) ((List.replicate 7 true).drop 10)
        (if 10 ≤ (peekBits32 (List.replicate 7 true)).2 then acc ++ [33 % 256] else acc)
      = Except.ok acc
    rw [hp2, if_neg (by norm_num),
      show (List.replicate 7 true).drop 10 = [] from by decide]
    simp only [huffDecLoop]
    rw [if_neg (by decide)]

/-- Helper: the decode loop turns each leading codeword back into its
symbol, then consumes the padding. -/
theorem huffDecLoop_spec : ∀ (rest : List Nat) (fuel padLen : Nat) (acc : List Nat),
    (∀ b ∈ rest, b < 256) → padLen ≤ 7 → rest.length + 2 ≤ fuel →
    huffDecLoop fuel ((rest.map codeword).join ++ List.replicate padLen true) acc
      = .ok (acc ++ rest) := by
  intro rest
  induction rest with
  | nil =>
    intro fuel padLen acc _ hpad hfuel
    obtain ⟨f, rfl⟩ : ∃ f, fuel = f + 2 := ⟨fuel - 2, by omega⟩
    rw [show (([] : List Nat).map codeword).join ++ List.replicate padLen true
        = List.replicate padLen true from by simp]
    by_cases h5 : 5 ≤ padLen
    · rw [huffDecLoop_pad padLen f acc h5 hpad, List.append_nil]
    · simp only [huffDecLoop]
      rw [if_neg (by rw [List.length_replicate]; omega), List.append_nil]
  | cons b rest ih =>
    intro fuel padLen acc hmem hpad hfuel
    cases fuel with
    | zero => simp only [List.length_cons] at hfuel; omega
    | succ fuel =>
      have hb : b < 256 := hmem b (by simp)
      have hb257 : b < 257 := by omega
      have h5b := (entryOK_spec b hb257).2.1
      have h30b := (entryOK_spec b hb257).2.2
      rw [show (((b :: rest).map codeword).join ++ List.replicate padLen true)
          = codeword b ++ ((rest.map codeword).join ++ List.replicate padLen true)
          from by simp]
      have hlen5 : 5 ≤ (codeword b
          ++ ((rest.map codeword).join ++ List.replicate padLen true)).length := by
        rw [List.length_append, codeword_length]
        omega
      simp only [huffDecLoop]
      rw [if_pos hlen5]
      have hp1 : (peekBits32 (codeword b
            ++ ((rest.map codeword).join ++ List.replicate padLen true))).1
          = natOfBits (padTo 32 (codeword b
            ++ ((rest.map codeword).join ++ List.replicate padLen true))) := by
        rw [peekBits32_spec]
      have hne : (codeword b
          ++ ((rest.map codeword).join ++ List.replicate padLen true)) ≠ [] := by
        intro hcon
        have hl := congrArg List.length hcon
        rw [List.length_append, codeword_length] at hl
        simp at hl
        omega
      have hp2 : hBits b ≤ (peekBits32 (codeword b
          ++ ((rest.map codeword).join ++ List.replicate padLen true))).2 := by
        rw [peekBits32_spec]
        show hBits b ≤ (if (codeword b
              ++ ((rest.map codeword).join ++ List.replicate padLen true)) = [] then 32
            else if (codeword b
              ++ ((rest.map codeword).join ++ List.replicate padLen true)).length ≤ 40
            then (codeword b
              ++ ((rest.map codeword).join ++ List.replicate padLen true)).length else 32)
        rw [if_neg hne]
        by_cases hl : (codeword b
            ++ ((rest.map codeword).join ++ List.replicate padLen true)).length ≤ 40
        · rw [if_pos hl, List.length_append, codeword_length]
          omega
        · rw [if_neg hl]
          omega
      rw [hp1, huffLookup_codeword b hb257 _]
      show huffDecLoop fuel
          ((codeword b ++ ((rest.map codeword).join
            ++ List.replicate padLen true)).drop (hBits b))
          (if hBits b ≤ (peekBits32 (codeword b ++ ((rest.map codeword).join
            ++ List.replicate padLen true))).2
            then acc ++ [b % 256] else acc)
        = Except.ok (acc ++ b :: rest)
      rw [if_pos hp2, Nat.mod_eq_of_lt hb]
      have hdrop : (codeword b ++ ((rest.map codeword).join
            ++ List.replicate padLen true)).drop (hBits b)
          = (rest.map codeword).join ++ List.replicate padLen true := by
        conv_lhs => rw [← codeword_length b]
        exact List.drop_left _ _
      rw [hdrop]
      have hfuel' : rest.length + 2 ≤ fuel := by
        simp only [List.length_cons] at hfuel
        omega
      rw [ih fuel padLen (acc ++ [b]) (fun x hx => hmem x (by simp [hx])) hpad hfuel']
      simp


/-! ## C9 groundwork: what the encoder emits, bit by bit -/

/-- Helper: one step of the encoder's accumulator loop. -/
theorem huffEncLoop_cons (b : Bool) (rest : List Bool) (cb n : Nat) :
    huffEncLoop (b :: rest) cb n
      = if n + 1 = 8 then (if b then cb ||| 1 else cb) :: huffEncLoop rest 0 0
        else huffEncLoop rest ((if b then cb ||| 1 else cb) <<< 1) (n + 1) := rfl

/-- Helper: the source's trailing partial byte is the pending bits followed
by ones. -/
theorem eosPadByte_eq (p : List Bool) (h1 : 0 < p.length) (h8 : p.length < 8) :
    eosPadByte (natOfBits p <<< 1) p.length
      = natOfBits (p ++ List.replicate (8 - p.length) true) := by
  have hunf : eosPadByte (natOfBits p <<< 1) p.length
      = ((natOfBits p <<< 1) <<< (7 - p.length))
        ||| ((0x3fffffff : Nat) >>> (30 - (8 - p.length))) := rfl
  rw [hunf, ← Nat.shiftLeft_add,
    show 1 + (7 - p.length) = 8 - p.length from by omega]
  have hshr : (0x3fffffff : Nat) >>> (30 - (8 - p.length)) = 2 ^ (8 - p.length) - 1 := by
    rcases (by omega : p.length = 1 ∨ p.length = 2 ∨ p.length = 3 ∨ p.length = 4 ∨
        p.length = 5 ∨ p.length = 6 ∨ p.length = 7) with h | h | h | h | h | h | h <;>
      rw [h] <;> decide
  rw [hshr,
    shiftLeft_lor_eq_add _ _ _ (by have := Nat.two_pow_pos (8 - p.length); omega),
    natOfBits_append, natOfBits_replicate_true, List.length_replicate]

/-- Helper: the encoder loop emits exactly the pending bits, the input bits
and an all-ones pad to the next byte boundary. -/
theorem huffEncLoop_spec : ∀ (bits p : List Bool), p.length < 8 →
    bitsOfBytes (huffEncLoop bits (natOfBits p <<< 1) p.length)
      = p ++ bits ++ List.replicate ((8 - (p.length + bits.length) % 8) % 8) true := by
  intro bits
  induction bits with
  | nil =>
    intro p hp
    simp only [huffEncLoop]
    by_cases h0 : 0 < p.length
    · rw [if_pos ⟨h0, hp⟩, eosPadByte_eq p h0 hp]
      have hone : bitsOfBytes [natOfBits (p ++ List.replicate (8 - p.length) true)]
          = bitsOfByte (natOfBits (p ++ List.replicate (8 - p.length) true)) := by
        simp [bitsOfBytes]
      rw [hone, bitsOfByte_natOfBits _
        (by rw [List.length_append, List.length_replicate]; omega)]
      have hcount : (8 - (p.length + ([] : List Bool).length) % 8) % 8 = 8 - p.length := by
        simp only [List.length_nil]
        omega
      rw [hcount, List.append_nil]
    · rw [if_neg (fun hcon => h0 hcon.1)]
      have hp0 : p = [] := List.length_eq_zero.mp (by omega)
      subst hp0
      simp [bitsOfBytes, natOfBits]
  | cons b bs ih =>
    intro p hp
    rw [huffEncLoop_cons]
    have hcb : (if b then (natOfBits p <<< 1) ||| 1 else natOfBits p <<< 1)
        = natOfBits (p ++ [b]) := by
      rw [natOfBits_append]
      cases b
      · rw [show natOfBits [false] = 0 from rfl,
          show ([false] : List Bool).length = 1 from rfl, Nat.shiftLeft_eq]
        simp
      · rw [show natOfBits [true] = 1 from rfl,
          show ([true] : List Bool).length = 1 from rfl, if_pos rfl,
          shiftLeft_lor_eq_add (natOfBits p) 1 1 (by omega)]
    by_cases h7 : p.length + 1 = 8
    · rw [if_pos h7, hcb]
      have hsplit : bitsOfBytes (natOfBits (p ++ [b]) :: huffEncLoop bs 0 0)
          = bitsOfByte (natOfBits (p ++ [b])) ++ bitsOfBytes (huffEncLoop bs 0 0) := by
        simp [bitsOfBytes]
      rw [hsplit, bitsOfByte_natOfBits _ (by simp; omega)]
      have h00 : huffEncLoop bs 0 0
          = huffEncLoop bs (natOfBits [] <<< 1) ([] : List Bool).length := rfl
      rw [h00, ih [] (by simp)]
      have hcount : (8 - (([] : List Bool).length + bs.length) % 8) % 8
          = (8 - (p.length + (b :: bs).length) % 8) % 8 := by
        simp only [List.length_nil, List.length_cons]
        omega
      rw [hcount]
      simp
    · rw [if_neg h7, hcb]
      have hlen : p.length + 1 = (p ++ [b]).length := by simp
      rw [hlen, ih (p ++ [b]) (by simp; omega)]
      have hcount : (8 - ((p ++ [b]).length + bs.length) % 8) % 8
          = (8 - (p.length + (b :: bs).length) % 8) % 8 := by
        simp only [List.length_append, List.length_cons, List.length_nil]
        omega
      rw [hcount]
      simp

/-- Helper: the bit stream of `HuffmanEncode` output is the concatenated
codewords plus 0 to 7 all-ones padding bits. -/
theorem HuffmanEncode_bits (data : Bytes) :
    bitsOfBytes (HuffmanEncode data)
      = (data.map codeword).join
        ++ List.replicate ((8 - ((data.map codeword).join).length % 8) % 8) true := by
  rw [HuffmanEncode]
  have h := huffEncLoop_spec ((data.map codeword).join) [] (by simp)
  rw [show natOfBits [] <<< 1 = 0 from rfl,
    show ([] : List Bool).length = 0 from rfl] at h
  rw [h]
  simp

/-- Helper: a byte buffer carries eight bits per byte. -/
theorem bitsOfBytes_length (bs : Bytes) : (bitsOfBytes bs).length = 8 * bs.length := by
  induction bs with
  | nil => rfl
  | cons b t ih =>
    have hc : bitsOfBytes (b :: t) = bitsOfByte b ++ bitsOfBytes t := by
      simp [bitsOfBytes]
    rw [hc, List.length_append, ih, show (bitsOfByte b).length = 8 from rfl,
      List.length_cons]
    ring

/-- Helper: every codeword has at least five bits, so the code stream is at
least five bits per input byte. -/
theorem codeBits_length_ge (data : Bytes) (h : ∀ b ∈ data, b < 256) :
    5 * data.length ≤ ((data.map codeword).join).length := by
  induction data with
  | nil => simp
  | cons b t ih =>
    have hb : b < 257 := by have := h b (by simp); omega
    have h5 := (entryOK_spec b hb).2.1
    have hc : ((b :: t).map codeword).join = codeword b ++ (t.map codeword).join := by
      simp
    have ht := ih (fun x hx => h x (by simp [hx]))
    rw [hc, List.length_append, codeword_length, List.length_cons]
    omega

/-- C9.  **Huffman round-trip.**  For every byte string (each element below
256), decoding the Huffman encoding returns exactly the input with no
error: the 0-to-7 all-ones padding bits appended by the encoder read as a
partial code match that the decoder's `bitsRead` check discards, producing
no extra symbol. -/
theorem huffman_roundtrip (data : Bytes) (h : ∀ b ∈ data, b < 256) :
    HuffmanDecode (HuffmanEncode data) = .ok data := by
  rw [HuffmanDecode, HuffmanEncode_bits]
  have hpadle : (8 - ((data.map codeword).join).length % 8) % 8 ≤ 7 := by omega
  have hlenenc : 8 * (HuffmanEncode data).length
      = ((data.map codeword).join).length
        + ((8 - ((data.map codeword).join).length % 8) % 8) := by
    rw [← bitsOfBytes_length, HuffmanEncode_bits, List.length_append,
      List.length_replicate]
  have h5 := codeBits_length_ge data h
  have hfuel : data.length + 2 ≤ 8 * (HuffmanEncode data).length + 2 := by omega
  rw [huffDecLoop_spec data (8 * (HuffmanEncode data).length + 2)
    ((8 - ((data.map codeword).join).length % 8) % 8) [] h hpadle hfuel]
  simp

/-- Witness for C9 at the one-byte string `"a"`. -/
theorem huffman_roundtrip_witness : HuffmanDecode (HuffmanEncode [97]) = .ok [97] :=
  huffman_roundtrip [97] (by decide)

end Hpack
